import Mathlib

/-!
A verification development for the toy compiler `test1.c`

The program reads the file `input` one character at a time, tokenises it
(`getNextToken`), parses one statement at a time by recursive descent
(`parseStatement` and the productions it dispatches to) and prints a
pseudo-assembly listing for every statement (`generateAssembly`).

Embedding.
* The character source (`FILE *source`, read with `fgetc` / `ungetc`) is the
  list of characters that are still unread.  Every list element stands for one
  byte of the file; the program never calls `setlocale`, so the `<ctype.h>`
  predicates are those of the "C" locale, which accept ASCII characters only.
* A `char` buffer holding a NUL-terminated string is the list of characters
  before the NUL.
* An `ASTNode *` is either `NULL` or a node with its four fields.
* `exit(1)` after printing a diagnostic is the result `Res.exit`; it is
  propagated unchanged through every caller.
* The recursion of the parser is bounded by a fuel argument so that every
  function is total; `main` supplies fuel computed from the input.
-/

namespace Vicharak

/-- The constant `MAX_TOKEN_LENGTH` of the source. -/
def MAX_TOKEN_LENGTH : Nat := 100

/-- Token types enumeration. -/
inductive TokenType where
  | TOK_INT | TOK_ID | TOK_NUM | TOK_ASSIGN
  | TOK_PLUS | TOK_MINUS | TOK_IF | TOK_EQ | TOK_LBRACE | TOK_RBRACE
  | TOK_SEMICOLON | TOK_END
  deriving DecidableEq, Repr

/-- Token structure: a type tag and the text held in `value`. -/
structure Token where
  type : TokenType
  value : List Char
  deriving DecidableEq, Repr

/-- AST node types enumeration. -/
inductive NodeType where
  | NODE_DECL | NODE_ASSIGNMENT | NODE_EXPR | NODE_COND | NODE_VAL | NODE_VAR
  deriving DecidableEq, Repr

/-- A value of type `ASTNode *`: the null pointer, or a node with its type tag,
its `data` text and its `left` and `right` children. -/
inductive ASTNode where
  | NULL : ASTNode
  | node (type : NodeType) (data : List Char) (left : ASTNode) (right : ASTNode) : ASTNode
  deriving DecidableEq, Repr

open TokenType NodeType

/-- The `isspace` of the "C" locale: space, and the controls `\t \n \v \f \r`. -/
def isspace (ch : Char) : Bool :=
  ch.toNat = 32 || (9 ≤ ch.toNat && ch.toNat ≤ 13)

/-- The `isalpha` of the "C" locale: `A`-`Z` and `a`-`z`. -/
def isalpha (ch : Char) : Bool :=
  (65 ≤ ch.toNat && ch.toNat ≤ 90) || (97 ≤ ch.toNat && ch.toNat ≤ 122)

/-- The `isdigit` of C: `0`-`9`. -/
def isdigit (ch : Char) : Bool :=
  48 ≤ ch.toNat && ch.toNat ≤ 57

/-- The `isalnum` of the "C" locale. -/
def isalnum (ch : Char) : Bool :=
  isalpha ch || isdigit ch

/-- The accumulation loop of `getNextToken`,
`while (p(ch = fgetc(source))) { if (len < MAX_TOKEN_LENGTH - 1) token->value[len++] = ch; }`
followed by `ungetc(ch, source)`.  `buf` is `token->value[0 .. len-1]`.  The
result is the final buffer and the unread source.  At end of file `fgetc`
returns `EOF`, for which `p` is false and `ungetc` does nothing. -/
def scanWhile (p : Char → Bool) : List Char → List Char → List Char × List Char
  | buf, [] => (buf, [])
  | buf, ch :: rest =>
    if p ch then
      scanWhile p (if buf.length < MAX_TOKEN_LENGTH - 1 then buf ++ [ch] else buf) rest
    else (buf, ch :: rest)

/-- The classification of an accumulated word by the two `strcmp` tests. -/
def wordType (value : List Char) : TokenType :=
  if value = ['i', 'n', 't'] then TOK_INT
  else if value = ['i', 'f'] then TOK_IF
  else TOK_ID

/-- Function to tokenize the input: returns the token written to `*token`
and the unread source. -/
def getNextToken : List Char → Token × List Char
  | [] => (⟨TOK_END, []⟩, [])
  | ch :: rest =>
    if isspace ch then getNextToken rest
    else if isalpha ch then
      let r := scanWhile isalnum [ch] rest
      (⟨wordType r.1, r.1⟩, r.2)
    else if isdigit ch then
      let r := scanWhile isdigit [ch] rest
      (⟨TOK_NUM, r.1⟩, r.2)
    else if ch = '=' then (⟨TOK_ASSIGN, [ch]⟩, rest)
    else if ch = '+' then (⟨TOK_PLUS, [ch]⟩, rest)
    else if ch = '-' then (⟨TOK_MINUS, [ch]⟩, rest)
    else if ch = Char.ofNat 123 then (⟨TOK_LBRACE, [ch]⟩, rest)
    else if ch = Char.ofNat 125 then (⟨TOK_RBRACE, [ch]⟩, rest)
    else if ch = ';' then (⟨TOK_SEMICOLON, [ch]⟩, rest)
    else getNextToken rest

/-- Function to create an AST node. -/
def newNode (type : NodeType) (data : List Char) : ASTNode :=
  .node type data .NULL .NULL

/-- The result of a parsing function: it returns a node pointer and leaves
the shared token and the source in a new state, or it prints a diagnostic and
calls `exit(1)`, or the fuel of the model ran out. -/
inductive Res where
  | ok (node : ASTNode) (current : Token) (source : List Char) : Res
  | exit (msg : String) : Res
  | outOfFuel : Res
  deriving DecidableEq, Repr

/-- Function to parse a variable declaration. -/
def parseDeclaration (_current : Token) (source : List Char) : Res :=
  match getNextToken source with
  | (current, source) =>
    if current.type ≠ TOK_ID then .exit "Syntax Error: Expected identifier"
    else
      let node := newNode NODE_DECL current.value
      match getNextToken source with
      | (current, source) =>
        if current.type ≠ TOK_SEMICOLON then .exit "Syntax Error: Expected ';'"
        else .ok node current source

/-- Function to parse an expression. -/
def parseExpression (_current : Token) (source : List Char) : Res :=
  match getNextToken source with
  | (current, source) =>
    if current.type = TOK_NUM ∨ current.type = TOK_ID then
      .ok (newNode NODE_VAL current.value) current source
    else .ok .NULL current source

/-- The assignment `node->right = child`. -/
def setRight : ASTNode → ASTNode → ASTNode
  | .NULL, _ => .NULL
  | .node type data left _, child => .node type data left child

/-- The assignment `node->left = child`. -/
def setLeft : ASTNode → ASTNode → ASTNode
  | .NULL, _ => .NULL
  | .node type data _ right, child => .node type data child right

/-- Function to parse an assignment. -/
def parseAssignment (current : Token) (source : List Char) : Res :=
  if current.type ≠ TOK_ID then .exit "Syntax Error: Expected identifier"
  else
    let node := newNode NODE_ASSIGNMENT current.value
    match getNextToken source with
    | (current, source) =>
      if current.type ≠ TOK_ASSIGN then .exit "Syntax Error: Expected '='"
      else
        match parseExpression current source with
        | .ok expr _ source =>
          let node := setRight node expr
          match getNextToken source with
          | (current, source) =>
            if current.type ≠ TOK_SEMICOLON then .exit "Syntax Error: Expected ';'"
            else .ok node current source
        | r => r

/-- The assignment `lastNode->right = statement` of the block loop, seen from
`blockNode`: `lastNode` aliases the node reached from `blockNode` by following
`right` exactly `depth` times. -/
def setRightAt : Nat → ASTNode → ASTNode → ASTNode
  | 0, block, statement => setRight block statement
  | _ + 1, .NULL, _ => .NULL
  | depth + 1, .node type data left right, statement =>
    .node type data left (setRightAt depth right statement)

mutual

/-- Function to parse a statement. -/
def parseStatement : Nat → Token → List Char → Res
  | 0, _, _ => .outOfFuel
  | fuel + 1, _, source =>
    match getNextToken source with
    | (current, source) =>
      if current.type = TOK_INT then parseDeclaration current source
      else if current.type = TOK_ID then parseAssignment current source
      else if current.type = TOK_IF then parseConditional fuel current source
      else if current.type = TOK_LBRACE then blockLoop fuel .NULL 0 current source
      else .ok .NULL current source

/-- Function to parse an if-statement. -/
def parseConditional : Nat → Token → List Char → Res
  | 0, _, _ => .outOfFuel
  | fuel + 1, _, source =>
    match getNextToken source with
    | (current, source) =>
      if current.type ≠ TOK_LBRACE then .exit "Syntax Error: Expected '('"
      else
        match parseExpression current source with
        | .ok condition _ source =>
          match getNextToken source with
          | (current, source) =>
            if current.type ≠ TOK_RBRACE then .exit "Syntax Error: Expected ')'"
            else
              match getNextToken source with
              | (current, source) =>
                if current.type ≠ TOK_LBRACE then .exit "Syntax Error: Expected '\x7b'"
                else
                  match parseStatement fuel current source with
                  | .ok body _ source =>
                    match getNextToken source with
                    | (current, source) =>
                      if current.type ≠ TOK_RBRACE then .exit "Syntax Error: Expected '\x7d'"
                      else
                        let ifNode := newNode NODE_COND []
                        let ifNode := setLeft ifNode condition
                        let ifNode := setRight ifNode body
                        .ok ifNode current source
                  | r => r
        | r => r

/-- The `while (1)` loop of the block branch of `parseStatement`.  `blockNode`
is the head of the chain built so far and `last` is the number of `right`
links from `blockNode` to `lastNode` (unused while `blockNode` is `NULL`). -/
def blockLoop : Nat → ASTNode → Nat → Token → List Char → Res
  | 0, _, _, _, _ => .outOfFuel
  | fuel + 1, blockNode, last, current, source =>
    match parseStatement fuel current source with
    | .ok statement current source =>
      if statement = .NULL ∨ current.type = TOK_RBRACE then .ok blockNode current source
      else if blockNode = .NULL then blockLoop fuel statement 0 current source
      else blockLoop fuel (setRightAt last blockNode statement) (last + 1) current source
    | r => r

end

/-- Function to generate assembly code from the AST: the lines printed, in order. -/
def generateAssembly : ASTNode → List String
  | .NULL => []
  | .node type data left right =>
    match type with
    | NODE_DECL => ["VAR " ++ String.mk data]
    | NODE_ASSIGNMENT => generateAssembly right ++ ["STORE " ++ String.mk data]
    | NODE_VAL => ["LOAD " ++ String.mk data]
    | NODE_COND =>
      generateAssembly left ++ ["JZ else_label"] ++ generateAssembly right ++ ["else_label:"]
    | _ => ["Unknown node type"]

/-- How a run of the program ends.  `finished out`: `main` returns 0 after
`generateAssembly` printed the lines `out`.  `syntaxError out msg`: after the
lines `out` a production printed the diagnostic `msg` and called `exit(1)`. -/
inductive RunResult where
  | finished (out : List String) : RunResult
  | syntaxError (out : List String) (msg : String) : RunResult
  | outOfFuel : RunResult
  deriving DecidableEq, Repr

/-- Fuel that lets one `parseStatement` call run to its end on `source`. -/
def stmtFuel (source : List Char) : Nat := 2 * source.length + 1

/-- The driver loop `while (1)` of `main`; `out` holds the lines printed so far. -/
def mainLoop : Nat → Token → List Char → List String → RunResult
  | 0, _, _, _ => .outOfFuel
  | fuel + 1, current, source, out =>
    match parseStatement (stmtFuel source) current source with
    | .ok statement current source =>
      if statement = .NULL then .finished out
      else mainLoop fuel current source (out ++ generateAssembly statement)
    | .exit msg => .syntaxError out msg
    | .outOfFuel => .outOfFuel

/-- Main function, run on the contents of the file `input`.  `currentToken`
is uninitialised in the source; `parseStatement` overwrites it before any read. -/
def main (input : List Char) : RunResult :=
  mainLoop (input.length + 1) ⟨TOK_END, []⟩ input []

/-! ## Vocabulary of the properties -/

/-- The next unread character, if any, does not satisfy `p`: a word made of
`p`-characters that is followed by such a source ends where the source begins. -/
def stopsAt (p : Char → Bool) : List Char → Bool
  | [] => true
  | c :: _ => !p c

/-- An identifier of the language that fits the token buffer: an ASCII letter
followed by ASCII letters and digits, at most 99 characters, and neither of
the keywords `int` and `if`. -/
def isIdent (x : List Char) : Bool :=
  match x with
  | [] => false
  | c :: w =>
    isalpha c && w.all isalnum && decide (x.length ≤ 99)
      && decide (x ≠ ['i', 'n', 't']) && decide (x ≠ ['i', 'f'])

/-- A numeric literal that fits the token buffer: a non-empty string of at
most 99 digits. -/
def isNumber (v : List Char) : Bool :=
  match v with
  | [] => false
  | c :: w => isdigit c && w.all isdigit && decide (v.length ≤ 99)

/-- A value: an identifier or a numeric literal. -/
def isValue (v : List Char) : Bool := isIdent v || isNumber v

/-- The token that the text of a value is read as. -/
def valueToken (v : List Char) : Token :=
  ⟨if isNumber v then TOK_NUM else TOK_ID, v⟩

/-- The simple statements `S ::= "int x;" | "x = v;" | "if{e}{S}"`. -/
inductive Stmt where
  | decl (x : List Char) : Stmt
  | assign (x v : List Char) : Stmt
  | cond (e : List Char) (body : Stmt) : Stmt
  deriving DecidableEq, Repr

/-- Every name of the statement is an identifier and every value a value. -/
def Stmt.valid : Stmt → Bool
  | .decl x => isIdent x
  | .assign x v => isIdent x && isValue v
  | .cond e body => isValue e && body.valid

/-- The text of a simple statement. -/
def Stmt.text : Stmt → List Char
  | .decl x => "int ".toList ++ x ++ ";".toList
  | .assign x v => x ++ " = ".toList ++ v ++ ";".toList
  | .cond e body => "if\x7b".toList ++ e ++ "\x7d\x7b".toList ++ body.text ++ "\x7d".toList

/-- The lines `code(S)` that the specification assigns to a simple statement. -/
def Stmt.code : Stmt → List String
  | .decl x => ["VAR " ++ String.mk x]
  | .assign x v => ["LOAD " ++ String.mk v, "STORE " ++ String.mk x]
  | .cond e body =>
    ["LOAD " ++ String.mk e, "JZ else_label"] ++ body.code ++ ["else_label:"]

/-- The tree that a simple statement is parsed to. -/
def Stmt.tree : Stmt → ASTNode
  | .decl x => .node NODE_DECL x .NULL .NULL
  | .assign x v => .node NODE_ASSIGNMENT x .NULL (.node NODE_VAL v .NULL .NULL)
  | .cond e body => .node NODE_COND [] (.node NODE_VAL e .NULL .NULL) body.tree

/-- The nesting depth of a simple statement. -/
def Stmt.depth : Stmt → Nat
  | .decl _ => 0
  | .assign _ _ => 0
  | .cond _ body => body.depth + 1

/-- The token that is current when a simple statement has been parsed. -/
def Stmt.lastToken : Stmt → Token
  | .cond _ _ => ⟨TOK_RBRACE, [Char.ofNat 125]⟩
  | _ => ⟨TOK_SEMICOLON, [';']⟩

/-- The lines already printed when a run ends. -/
def RunResult.lines : RunResult → List String
  | .finished out => out
  | .syntaxError out _ => out
  | .outOfFuel => []

/-- The text of a program: each simple statement preceded by the characters
`ws` paired with it, and `tail` after the last statement. -/
def programText : List (List Char × Stmt) → List Char → List Char
  | [], tail => tail
  | (ws, S) :: ps, tail => ws ++ S.text ++ programText ps tail

/-- Every statement of the program is valid and is preceded by whitespace only. -/
def programValid (ps : List (List Char × Stmt)) : Bool :=
  ps.all (fun p => p.1.all isspace && p.2.valid)

/-- The concatenation, in order, of the specified lines of the statements. -/
def programCode : List (List Char × Stmt) → List String
  | [] => []
  | (_, S) :: ps => S.code ++ programCode ps

/-- The concatenation, in order, of the lines that the run prints for each
statement of the program when that statement is the whole input. -/
def aloneOutputs : List (List Char × Stmt) → List String
  | [] => []
  | (_, S) :: ps => (main S.text).lines ++ aloneOutputs ps

/-- A word: an ASCII letter followed by ASCII letters and digits. -/
def isWord (w : List Char) : Bool :=
  match w with
  | [] => false
  | c :: t => isalpha c && t.all isalnum

/-- The source `src` that follows an `int` token continues a well-formed
declaration: its next token is an identifier and the one after it a semicolon. -/
def declWellFormed (src : List Char) : Bool :=
  decide ((getNextToken src).1.type = TOK_ID)
    && decide ((getNextToken (getNextToken src).2).1.type = TOK_SEMICOLON)

/-- The diagnostic of a declaration that is not well formed: the identifier
is missing, or else the semicolon is. -/
def declDiagnostic (src : List Char) : String :=
  if (getNextToken src).1.type = TOK_ID then "Syntax Error: Expected ';'"
  else "Syntax Error: Expected identifier"

/-- A declaration or an assignment: a simple statement that is not a conditional. -/
def Stmt.flat : Stmt → Bool
  | .cond _ _ => false
  | _ => true

/-- A declaration. -/
def Stmt.isDecl : Stmt → Bool
  | .decl _ => true
  | _ => false

/-- The text of a block after its opening brace: every statement preceded by
a space, then a space and the closing brace. -/
def blockBody : List Stmt → List Char
  | [] => " \x7d".toList
  | s :: ss => ' ' :: s.text ++ blockBody ss

/-- The text of the block of the statements `ss`, as in `{ int a; int b; }`. -/
def blockText (ss : List Stmt) : List Char :=
  Char.ofNat 123 :: blockBody ss

/-- The Declaration nodes of the names `a1 ... an`, each the right child of
the one before it; the last has no right child. -/
def declChain : List (List Char) → ASTNode
  | [] => .NULL
  | a :: rest => .node NODE_DECL a .NULL (declChain rest)

/-- The nodes `t1 ... tn` threaded through their right children: the right
child of each node but the last is replaced by the chain of the nodes after it. -/
def link : List ASTNode → ASTNode
  | [] => .NULL
  | [t] => t
  | t :: t2 :: ts => setRight t (link (t2 :: ts))

/-- One turn of the block loop on the pair `(blockNode, last)` for a
statement that is kept. -/
def chainStep (st : ASTNode × Nat) (statement : ASTNode) : ASTNode × Nat :=
  if st.1 = .NULL then (statement, 0) else (setRightAt st.2 st.1 statement, st.2 + 1)

/-- The text `if{e}{ int a; int b; }` of a conditional with two declarations
in its body. -/
def condTwoDecls (e a b : List Char) : List Char :=
  "if\x7b".toList ++ e ++ "\x7d\x7b int ".toList ++ a ++ "; int ".toList ++ b
    ++ "; \x7d".toList

/-- The text `if{e}{}` of a conditional with an empty body. -/
def condEmpty (e : List Char) : List Char :=
  "if\x7b".toList ++ e ++ "\x7d\x7b\x7d".toList

/-- A character that starts a token: an ASCII letter, a digit or one of the
six characters `= + - { } ;`. -/
def startsToken (c : Char) : Bool :=
  isalpha c || isdigit c || decide (c = '=') || decide (c = '+') || decide (c = '-')
    || decide (c = Char.ofNat 123) || decide (c = Char.ofNat 125) || decide (c = ';')

/-- The texts of the tokens that are neither an identifier nor a numeric
literal: `int if = + - { } ;`. -/
def nonValueTexts : List (List Char) :=
  ["int".toList, "if".toList, "=".toList, "+".toList, "-".toList, "\x7b".toList,
    "\x7d".toList, ";".toList]

/-- The text `x = T ;` of an assignment whose expression position holds `T`. -/
def assignNonValue (x T : List Char) : List Char :=
  x ++ " = ".toList ++ T ++ " ;".toList

/-- The text `if{ T }{ int a; }` of a conditional whose condition position
holds `T`. -/
def condNonValue (T a : List Char) : List Char :=
  "if\x7b ".toList ++ T ++ " \x7d\x7b int ".toList ++ a ++ "; \x7d".toList

/-- The Assignment nodes of `x1 = v1; ... xn = vn;` as the block loop leaves
them: the right child of each node but the last is the next Assignment node,
and only the last node keeps its value node. -/
def assignChain : List (List Char × List Char) → ASTNode
  | [] => .NULL
  | [(x, v)] => .node NODE_ASSIGNMENT x .NULL (.node NODE_VAL v .NULL .NULL)
  | (x, _) :: p :: ps => .node NODE_ASSIGNMENT x .NULL (assignChain (p :: ps))

/-- The lines `LOAD vn`, `STORE xn`, `STORE x(n-1)`, ..., `STORE x1`. -/
def assignBlockCode (ps : List (List Char × List Char)) : List String :=
  (match ps.getLast? with
    | none => []
    | some p => ["LOAD " ++ String.mk p.2])
    ++ ps.reverse.map (fun p => "STORE " ++ String.mk p.1)

/-- The tree holds a Conditional node. -/
def hasCond : ASTNode → Bool
  | .NULL => false
  | .node type _ left right => decide (type = NODE_COND) || hasCond left || hasCond right

/-- The texts of the statements `ss`, each preceded by a space. -/
def stmtsText : List Stmt → List Char
  | [] => []
  | s :: ss => ' ' :: s.text ++ stmtsText ss

/-- The text `{ D1 ... Dk C rest`: an opening brace, the declarations of the
names `ds`, the conditional `C`, and whatever follows it. -/
def blockUpToCond (ds : List (List Char)) (C : Stmt) (rest : List Char) : List Char :=
  Char.ofNat 123 :: (stmtsText (ds.map Stmt.decl) ++ ' ' :: (C.text ++ rest))

/-- A conditional `if{e}{S}`. -/
def Stmt.isCond : Stmt → Bool
  | .cond _ _ => true
  | _ => false

/-- The property of C16 for every node of a tree: a left child is present
only under a Conditional node and is then a value node without children, and
the text of a Conditional node is empty. -/
def leftShape : ASTNode → Bool
  | .NULL => true
  | .node type data left right =>
    (match left with
      | .NULL => true
      | .node ltype _ lleft lright =>
        decide (type = NODE_COND) && decide (ltype = NODE_VAL)
          && decide (lleft = .NULL) && decide (lright = .NULL))
      && (decide (type ≠ NODE_COND) || decide (data = []))
      && leftShape left && leftShape right

/-- One of the four node kinds that the parser creates. -/
def parserKind (type : NodeType) : Bool :=
  decide (type = NODE_DECL) || decide (type = NODE_ASSIGNMENT) || decide (type = NODE_VAL)
    || decide (type = NODE_COND)

/-- Every node of the tree has one of the four kinds of `parserKind`. -/
def kindsOK : ASTNode → Bool
  | .NULL => true
  | .node type _ left right => parserKind type && kindsOK left && kindsOK right

/-- A line of the instruction listing: `VAR <name>`, `STORE <name>`,
`LOAD <text>`, `JZ else_label` or `else_label:`. -/
def instructionLine (line : String) : Prop :=
  (∃ d : List Char, line = "VAR " ++ String.mk d)
    ∨ (∃ d : List Char, line = "STORE " ++ String.mk d)
    ∨ (∃ d : List Char, line = "LOAD " ++ String.mk d)
    ∨ line = "JZ else_label" ∨ line = "else_label:"

/-- The body of `parseConditional` with its one recursive call, the call of
`parseStatement` for the body of the conditional, replaced by `parseBody`. -/
def condStep (parseBody : Token → List Char → Res) (source : List Char) : Res :=
  match getNextToken source with
  | (current, source) =>
    if current.type ≠ TOK_LBRACE then .exit "Syntax Error: Expected '('"
    else
      match parseExpression current source with
      | .ok condition _ source =>
        match getNextToken source with
        | (current, source) =>
          if current.type ≠ TOK_RBRACE then .exit "Syntax Error: Expected ')'"
          else
            match getNextToken source with
            | (current, source) =>
              if current.type ≠ TOK_LBRACE then .exit "Syntax Error: Expected '\x7b'"
              else
                match parseBody current source with
                | .ok body _ source =>
                  match getNextToken source with
                  | (current, source) =>
                    if current.type ≠ TOK_RBRACE then .exit "Syntax Error: Expected '\x7d'"
                    else
                      let ifNode := newNode NODE_COND []
                      let ifNode := setLeft ifNode condition
                      let ifNode := setRight ifNode body
                      .ok ifNode current source
                | r => r
      | r => r

/-- A character that the lexer recognises: whitespace, or a character that
starts a token (a letter, a digit, one of `= + - { } ;`). -/
def recognised (c : Char) : Bool := isspace c || startsToken c

/-- The character itself when the lexer recognises it, a space otherwise. -/
def sanitizeChar (c : Char) : Char := if recognised c then c else ' '

/-- The source with every unrecognised character replaced by a space. -/
def sanitize (s : List Char) : List Char := s.map sanitizeChar

/-- The result with `f` applied to the unread source that it leaves. -/
def Res.mapSource (f : List Char → List Char) : Res → Res
  | .ok node current source => .ok node current (f source)
  | r => r

/-- The tokens returned by `n` successive calls of `getNextToken`. -/
def tokenStream : Nat → List Char → List Token
  | 0, _ => []
  | n + 1, s => (getNextToken s).1 :: tokenStream n (getNextToken s).2

/-! ## The tokenizer -/

theorem isalpha_not_isspace {c : Char} (h : isalpha c = true) : isspace c = false := by
  simp only [isalpha, isspace, Bool.or_eq_true, Bool.and_eq_true, decide_eq_true_eq,
    Bool.or_eq_false_iff, Bool.and_eq_false_iff, decide_eq_false_iff_not] at *
  omega

theorem isdigit_not_isspace {c : Char} (h : isdigit c = true) : isspace c = false := by
  simp only [isdigit, isspace, Bool.or_eq_true, Bool.and_eq_true, decide_eq_true_eq,
    Bool.or_eq_false_iff, Bool.and_eq_false_iff, decide_eq_false_iff_not] at *
  omega

theorem isdigit_not_isalpha {c : Char} (h : isdigit c = true) : isalpha c = false := by
  simp only [isdigit, isalpha, Bool.or_eq_true, Bool.and_eq_true, decide_eq_true_eq,
    Bool.or_eq_false_iff, Bool.and_eq_false_iff, decide_eq_false_iff_not] at *
  omega

theorem scanWhile_append (p : Char → Bool) (w rest : List Char)
    (hw : w.all p = true) (hr : stopsAt p rest = true) (buf : List Char) :
    scanWhile p buf (w ++ rest)
      = (buf ++ w.take (MAX_TOKEN_LENGTH - 1 - buf.length), rest) := by
  induction w generalizing buf with
  | nil =>
    cases rest with
    | nil => simp [scanWhile]
    | cons c r =>
      have hc : p c = false := by simpa [stopsAt] using hr
      simp [scanWhile, hc]
  | cons c w ih =>
    have hc : p c = true := by
      simp only [List.all_cons, Bool.and_eq_true] at hw
      exact hw.1
    have hw2 : w.all p = true := by
      simp only [List.all_cons, Bool.and_eq_true] at hw
      exact hw.2
    rw [List.cons_append]
    simp only [scanWhile, hc, if_true]
    rw [ih hw2]
    by_cases hlen : buf.length < MAX_TOKEN_LENGTH - 1
    · have e : MAX_TOKEN_LENGTH - 1 - buf.length
          = (MAX_TOKEN_LENGTH - 1 - (buf ++ [c]).length) + 1 := by
        simp only [List.length_append, List.length_singleton]
        omega
      rw [if_pos hlen, e, List.take_succ_cons]
      simp
    · have e : MAX_TOKEN_LENGTH - 1 - buf.length = 0 := by omega
      rw [if_neg hlen, e]
      simp

theorem getNextToken_blank (ws s : List Char) (h : ws.all isspace = true) :
    getNextToken (ws ++ s) = getNextToken s := by
  induction ws with
  | nil => rfl
  | cons c ws ih =>
    simp only [List.all_cons, Bool.and_eq_true] at h
    rw [List.cons_append]
    simp only [getNextToken, h.1, if_true]
    exact ih h.2

theorem getNextToken_word (c : Char) (w rest : List Char) (hc : isalpha c = true)
    (hw : w.all isalnum = true) (hr : stopsAt isalnum rest = true) :
    getNextToken (c :: w ++ rest)
      = (⟨wordType ((c :: w).take 99), (c :: w).take 99⟩, rest) := by
  have hs := isalpha_not_isspace hc
  rw [List.cons_append]
  simp only [getNextToken, hs, hc, if_true, Bool.false_eq_true, if_false]
  rw [scanWhile_append isalnum w rest hw hr]
  simp [MAX_TOKEN_LENGTH]

theorem getNextToken_digits (c : Char) (w rest : List Char) (hc : isdigit c = true)
    (hw : w.all isdigit = true) (hr : stopsAt isdigit rest = true) :
    getNextToken (c :: w ++ rest) = (⟨TOK_NUM, (c :: w).take 99⟩, rest) := by
  have hs := isdigit_not_isspace hc
  have ha := isdigit_not_isalpha hc
  rw [List.cons_append]
  simp only [getNextToken, hs, ha, hc, if_true, Bool.false_eq_true, if_false]
  rw [scanWhile_append isdigit w rest hw hr]
  simp [MAX_TOKEN_LENGTH]

theorem stopsAt_isdigit_of_isalnum {rest : List Char} (h : stopsAt isalnum rest = true) :
    stopsAt isdigit rest = true := by
  cases rest with
  | nil => rfl
  | cons c r =>
    simp only [stopsAt, isalnum, Bool.not_eq_true', Bool.or_eq_false_iff] at *
    exact h.2

theorem getNextToken_ident (x rest : List Char) (hx : isIdent x = true)
    (hr : stopsAt isalnum rest = true) :
    getNextToken (x ++ rest) = (⟨TOK_ID, x⟩, rest) := by
  cases x with
  | nil => simp [isIdent] at hx
  | cons c w =>
    simp only [isIdent, Bool.and_eq_true, decide_eq_true_eq] at hx
    obtain ⟨⟨⟨⟨hc, hw⟩, hlen⟩, h1⟩, h2⟩ := hx
    rw [getNextToken_word c w rest hc hw hr, List.take_of_length_le hlen]
    simp [wordType, h1, h2]

theorem isNumber_not_isIdent {v : List Char} (h : isNumber v = true) : isIdent v = false := by
  cases v with
  | nil => rfl
  | cons c w =>
    simp only [isNumber, Bool.and_eq_true] at h
    simp [isIdent, isdigit_not_isalpha h.1.1]

theorem getNextToken_value (v rest : List Char) (hv : isValue v = true)
    (hr : stopsAt isalnum rest = true) :
    getNextToken (v ++ rest) = (valueToken v, rest) := by
  by_cases hn : isNumber v = true
  · cases v with
    | nil => simp [isNumber] at hn
    | cons c w =>
      have hn2 := hn
      simp only [isNumber, Bool.and_eq_true, decide_eq_true_eq] at hn2
      obtain ⟨⟨hc, hw⟩, hlen⟩ := hn2
      rw [getNextToken_digits c w rest hc hw (stopsAt_isdigit_of_isalnum hr),
        List.take_of_length_le hlen]
      simp [valueToken, hn]
  · have hi : isIdent v = true := by
      simp only [isValue, Bool.or_eq_true] at hv
      rcases hv with h | h
      · exact h
      · exact absurd h hn
    rw [getNextToken_ident v rest hi hr]
    simp [valueToken, hn]

/-! ## Parsing the simple statements -/

theorem getNextToken_space (s : List Char) : getNextToken (' ' :: s) = getNextToken s :=
  getNextToken_blank [' '] s rfl

theorem parseStatement_blank (fuel : Nat) (cur : Token) (ws s : List Char)
    (h : ws.all isspace = true) :
    parseStatement fuel cur (ws ++ s) = parseStatement fuel cur s := by
  cases fuel with
  | zero => simp [parseStatement]
  | succ f => simp only [parseStatement, getNextToken_blank ws s h]

theorem parseStatement_decl (fuel : Nat) (cur : Token) (x rest : List Char)
    (hx : isIdent x = true) :
    parseStatement (fuel + 1) cur ((Stmt.decl x).text ++ rest)
      = .ok (Stmt.decl x).tree ⟨TOK_SEMICOLON, [';']⟩ rest := by
  have e : (Stmt.decl x).text ++ rest = 'i' :: 'n' :: 't' :: ' ' :: (x ++ ';' :: rest) := by
    simp [Stmt.text]
  have h1 : getNextToken ('i' :: 'n' :: 't' :: ' ' :: (x ++ ';' :: rest))
      = (⟨TOK_INT, ['i', 'n', 't']⟩, ' ' :: (x ++ ';' :: rest)) := rfl
  have h2 : getNextToken (' ' :: (x ++ ';' :: rest)) = (⟨TOK_ID, x⟩, ';' :: rest) := by
    rw [getNextToken_space]
    exact getNextToken_ident x _ hx rfl
  have h3 : getNextToken (';' :: rest) = (⟨TOK_SEMICOLON, [';']⟩, rest) := rfl
  rw [e]
  simp [parseStatement, parseDeclaration, h1, h2, h3, newNode, Stmt.tree]

theorem valueToken_type (v : List Char) :
    (valueToken v).type = TOK_NUM ∨ (valueToken v).type = TOK_ID := by
  unfold valueToken
  by_cases h : isNumber v = true <;> simp [h]

theorem parseExpression_value (cur : Token) (v rest : List Char) (hv : isValue v = true)
    (hr : stopsAt isalnum rest = true) :
    parseExpression cur (v ++ rest) = .ok (newNode NODE_VAL v) (valueToken v) rest := by
  have h := valueToken_type v
  have hval : (valueToken v).value = v := rfl
  simp only [parseExpression, getNextToken_value v rest hv hr, h, if_true, hval]

theorem parseStatement_assign (fuel : Nat) (cur : Token) (x v rest : List Char)
    (hx : isIdent x = true) (hv : isValue v = true) :
    parseStatement (fuel + 1) cur ((Stmt.assign x v).text ++ rest)
      = .ok (Stmt.assign x v).tree ⟨TOK_SEMICOLON, [';']⟩ rest := by
  have e : (Stmt.assign x v).text ++ rest = x ++ ' ' :: '=' :: ' ' :: (v ++ ';' :: rest) := by
    simp [Stmt.text]
  have h1 : getNextToken (x ++ ' ' :: '=' :: ' ' :: (v ++ ';' :: rest))
      = (⟨TOK_ID, x⟩, ' ' :: '=' :: ' ' :: (v ++ ';' :: rest)) :=
    getNextToken_ident x _ hx rfl
  have h2 : getNextToken (' ' :: '=' :: ' ' :: (v ++ ';' :: rest))
      = (⟨TOK_ASSIGN, ['=']⟩, ' ' :: (v ++ ';' :: rest)) := rfl
  have h3 : parseExpression ⟨TOK_ASSIGN, ['=']⟩ (' ' :: (v ++ ';' :: rest))
      = .ok (newNode NODE_VAL v) (valueToken v) (';' :: rest) := by
    rw [← parseExpression_value ⟨TOK_ASSIGN, ['=']⟩ v (';' :: rest) hv rfl]
    simp only [parseExpression, getNextToken_space]
  have h4 : getNextToken (';' :: rest) = (⟨TOK_SEMICOLON, [';']⟩, rest) := rfl
  rw [e]
  simp [parseStatement, parseAssignment, h1, h2, h3, h4, newNode, setRight, Stmt.tree]

theorem parseStatement_cond (fuel : Nat) (cur : Token) (e : List Char) (body : Stmt)
    (rest : List Char) (he : isValue e = true)
    (hbody : ∀ (c : Token) (r : List Char),
      parseStatement fuel c (body.text ++ r) = .ok body.tree body.lastToken r) :
    parseStatement (fuel + 2) cur ((Stmt.cond e body).text ++ rest)
      = .ok (Stmt.cond e body).tree ⟨TOK_RBRACE, [Char.ofNat 125]⟩ rest := by
  have e0 : (Stmt.cond e body).text ++ rest
      = 'i' :: 'f' :: Char.ofNat 123
          :: (e ++ Char.ofNat 125 :: Char.ofNat 123 :: (body.text ++ Char.ofNat 125 :: rest)) := by
    simp [Stmt.text]
  have h1 : ∀ s, getNextToken ('i' :: 'f' :: Char.ofNat 123 :: s)
      = (⟨TOK_IF, ['i', 'f']⟩, Char.ofNat 123 :: s) := fun _ => rfl
  have h2 : ∀ s, getNextToken (Char.ofNat 123 :: s) = (⟨TOK_LBRACE, [Char.ofNat 123]⟩, s) :=
    fun _ => rfl
  have h3 : ∀ s, getNextToken (Char.ofNat 125 :: s) = (⟨TOK_RBRACE, [Char.ofNat 125]⟩, s) :=
    fun _ => rfl
  have h4 : ∀ (c : Token) (s : List Char), parseExpression c (e ++ Char.ofNat 125 :: s)
      = .ok (newNode NODE_VAL e) (valueToken e) (Char.ofNat 125 :: s) :=
    fun c s => parseExpression_value c e _ he rfl
  rw [e0]
  simp [parseStatement, parseConditional, h1, h2, h3, h4, hbody, newNode, setRight, setLeft,
    Stmt.tree]

theorem parseStatement_stmt (S : Stmt) (hS : S.valid = true) (fuel : Nat)
    (hf : 2 * S.depth + 1 ≤ fuel) (cur : Token) (rest : List Char) :
    parseStatement fuel cur (S.text ++ rest) = .ok S.tree S.lastToken rest := by
  induction S generalizing fuel cur rest with
  | decl x =>
    obtain ⟨f, rfl⟩ : ∃ f, fuel = f + 1 := ⟨fuel - 1, by omega⟩
    exact parseStatement_decl f cur x rest hS
  | assign x v =>
    obtain ⟨f, rfl⟩ : ∃ f, fuel = f + 1 := ⟨fuel - 1, by omega⟩
    simp only [Stmt.valid, Bool.and_eq_true] at hS
    exact parseStatement_assign f cur x v rest hS.1 hS.2
  | cond e body ih =>
    simp only [Stmt.depth] at hf
    obtain ⟨f, rfl⟩ : ∃ f, fuel = f + 2 := ⟨fuel - 2, by omega⟩
    simp only [Stmt.valid, Bool.and_eq_true] at hS
    exact parseStatement_cond f cur e body rest hS.1
      (fun c r => ih hS.2 f (by omega) c r)

theorem Stmt.tree_ne_NULL (S : Stmt) : S.tree ≠ .NULL := by
  cases S <;> simp [Stmt.tree]

theorem generateAssembly_tree (S : Stmt) : generateAssembly S.tree = S.code := by
  induction S with
  | decl x => simp [Stmt.tree, Stmt.code, generateAssembly]
  | assign x v => simp [Stmt.tree, Stmt.code, generateAssembly]
  | cond e body ih => simp [Stmt.tree, Stmt.code, generateAssembly, ih]

theorem Stmt.depth_le_text (S : Stmt) : 2 * S.depth + 1 ≤ S.text.length := by
  induction S with
  | decl x => simp [Stmt.text, Stmt.depth]
  | assign x v => simp [Stmt.text, Stmt.depth]; omega
  | cond e body ih => simp [Stmt.text, Stmt.depth]; omega

/-! ## The driver loop -/

theorem parseStatement_current (fuel : Nat) (c1 c2 : Token) (s : List Char) :
    parseStatement fuel c1 s = parseStatement fuel c2 s := by
  cases fuel <;> simp [parseStatement]

theorem mainLoop_current (fuel : Nat) (c1 c2 : Token) (s : List Char) (out : List String) :
    mainLoop fuel c1 s out = mainLoop fuel c2 s out := by
  cases fuel with
  | zero => simp [mainLoop]
  | succ n => simp only [mainLoop, parseStatement_current (stmtFuel s) c1 c2 s]

theorem getNextToken_all_blank (ws : List Char) (h : ws.all isspace = true) :
    getNextToken ws = (⟨TOK_END, []⟩, []) := by
  have e := getNextToken_blank ws [] h
  rw [List.append_nil] at e
  rw [e]
  rfl

theorem mainLoop_blank (n : Nat) (cur : Token) (ws : List Char) (out : List String)
    (h : ws.all isspace = true) : mainLoop (n + 1) cur ws out = .finished out := by
  simp [mainLoop, stmtFuel, parseStatement, getNextToken_all_blank ws h]

theorem parseStatement_stmtFuel (S : Stmt) (hS : S.valid = true) (cur : Token)
    (ws rest : List Char) (hws : ws.all isspace = true) :
    parseStatement (stmtFuel (ws ++ S.text ++ rest)) cur (ws ++ S.text ++ rest)
      = .ok S.tree S.lastToken rest := by
  rw [List.append_assoc, parseStatement_blank _ _ _ _ hws]
  apply parseStatement_stmt S hS
  have := S.depth_le_text
  simp only [stmtFuel, List.length_append]
  omega

theorem mainLoop_stmt (S : Stmt) (hS : S.valid = true) (n : Nat) (cur : Token)
    (ws rest : List Char) (hws : ws.all isspace = true) (out : List String) :
    mainLoop (n + 1) cur (ws ++ S.text ++ rest) out = mainLoop n cur rest (out ++ S.code) := by
  rw [mainLoop, parseStatement_stmtFuel S hS cur ws rest hws]
  simp only [Stmt.tree_ne_NULL, if_false, generateAssembly_tree]
  exact mainLoop_current _ _ _ _ _

theorem mainLoop_program (ps : List (List Char × Stmt)) (hps : programValid ps = true)
    (n : Nat) (cur : Token) (tail : List Char) (out : List String) :
    mainLoop (n + ps.length) cur (programText ps tail) out
      = mainLoop n cur tail (out ++ programCode ps) := by
  induction ps generalizing out with
  | nil => simp [programText, programCode]
  | cons p ps ih =>
    obtain ⟨ws, S⟩ := p
    simp only [programValid, List.all_cons, Bool.and_eq_true] at hps
    have hps2 : programValid ps = true := hps.2
    rw [List.length_cons, ← Nat.add_assoc, programText,
      mainLoop_stmt S hps.1.2 _ cur ws _ hps.1.1, ih hps2, programCode, List.append_assoc]

theorem programText_length (ps : List (List Char × Stmt)) (tail : List Char) :
    ps.length + tail.length ≤ (programText ps tail).length := by
  induction ps with
  | nil => simp [programText]
  | cons p ps ih =>
    obtain ⟨ws, S⟩ := p
    have := S.depth_le_text
    simp only [programText, List.length_append, List.length_cons]
    omega

theorem main_program (ps : List (List Char × Stmt)) (hps : programValid ps = true)
    (tail : List Char) (htail : tail.all isspace = true) :
    main (programText ps tail) = .finished (programCode ps) := by
  have hlen := programText_length ps tail
  obtain ⟨n, hn⟩ : ∃ n, (programText ps tail).length + 1 = (n + 1) + ps.length :=
    ⟨(programText ps tail).length - ps.length, by omega⟩
  rw [main, hn, mainLoop_program ps hps, mainLoop_blank _ _ _ _ htail]
  simp

theorem main_stmt (S : Stmt) (hS : S.valid = true) : main S.text = .finished S.code := by
  have h := main_program [([], S)] (by simp [programValid, hS]) [] rfl
  simpa [programText, programCode] using h

theorem aloneOutputs_eq (ps : List (List Char × Stmt)) (hps : programValid ps = true) :
    aloneOutputs ps = programCode ps := by
  induction ps with
  | nil => rfl
  | cons p ps ih =>
    obtain ⟨ws, S⟩ := p
    simp only [programValid, List.all_cons, Bool.and_eq_true] at hps
    have hps2 : programValid ps = true := hps.2
    simp [aloneOutputs, programCode, main_stmt S hps.1.2, RunResult.lines, ih hps2]

/-! ## The claims -/

/-- C1: for every identifier `x`, the run on the input `int x;` ends normally
and prints exactly the one line `VAR x`. -/
theorem declaration_run (x : List Char) (hx : isIdent x = true) :
    main ("int ".toList ++ x ++ ";".toList) = .finished ["VAR " ++ String.mk x] :=
  main_stmt (.decl x) hx

theorem declaration_run_witness :
    isIdent "x".toList = true ∧ main "int x;".toList = .finished ["VAR x"] :=
  ⟨by decide, declaration_run "x".toList (by decide)⟩

/-- C2: for every identifier `x` and every value `v` (an identifier or a
numeric literal), the run on the input `x = v;` ends normally and prints
exactly the two lines `LOAD v` and `STORE x`, in that order. -/
theorem assignment_run (x v : List Char) (hx : isIdent x = true) (hv : isValue v = true) :
    main (x ++ " = ".toList ++ v ++ ";".toList)
      = .finished ["LOAD " ++ String.mk v, "STORE " ++ String.mk x] :=
  main_stmt (.assign x v) (by simp [Stmt.valid, hx, hv])

theorem assignment_run_witness :
    (isIdent "x".toList = true ∧ isValue "5".toList = true)
      ∧ main "x = 5;".toList = .finished ["LOAD 5", "STORE x"] :=
  ⟨by decide, assignment_run "x".toList "5".toList (by decide) (by decide)⟩

/-- C3: for every simple statement `S` of the grammar
`S ::= "int x;" | "x = v;" | "if{e}{S}"`, at any nesting depth, the run on the
text of `S` ends normally and prints exactly `code(S)`: for a conditional the
condition code, then `JZ else_label`, then the body code, then `else_label:`. -/
theorem conditional_run (S : Stmt) (hS : S.valid = true) :
    main S.text = .finished S.code :=
  main_stmt S hS

theorem conditional_run_witness :
    (Stmt.cond "a".toList (.cond "7".toList (.assign "y".toList "z".toList))).valid = true
      ∧ main "if\x7ba\x7d\x7bif\x7b7\x7d\x7by = z;\x7d\x7d".toList
        = .finished ["LOAD a", "JZ else_label", "LOAD 7", "JZ else_label", "LOAD z",
            "STORE y", "else_label:", "else_label:"] :=
  ⟨by decide,
    conditional_run (.cond "a".toList (.cond "7".toList (.assign "y".toList "z".toList)))
      (by decide)⟩

/-- C4: for every list of valid simple statements written one after another
with any whitespace before each of them and after the last, the run ends
normally and its output is the concatenation, in order, of the outputs of the
runs on each statement alone; every top-level `parseStatement` call returns
the tree of one statement and leaves the source just after that statement. -/
theorem sequence_run (ps : List (List Char × Stmt)) (tail : List Char)
    (hps : programValid ps = true) (htail : tail.all isspace = true) :
    main (programText ps tail) = .finished (aloneOutputs ps)
      ∧ ∀ (p : List Char × Stmt) (rest : List Char) (cur : Token), p ∈ ps →
          parseStatement (stmtFuel (p.1 ++ p.2.text ++ rest)) cur (p.1 ++ p.2.text ++ rest)
            = .ok p.2.tree p.2.lastToken rest := by
  refine ⟨?_, ?_⟩
  · rw [aloneOutputs_eq ps hps]
    exact main_program ps hps tail htail
  · intro p rest cur hp
    have h := List.all_eq_true.mp hps p hp
    simp only [Bool.and_eq_true] at h
    exact parseStatement_stmtFuel p.2 h.2 cur p.1 rest h.1

theorem sequence_run_witness :
    main "int x;  x = 5;\nif\x7bx\x7d\x7bint y;\x7d \n".toList
      = .finished ["VAR x", "LOAD 5", "STORE x", "LOAD x", "JZ else_label", "VAR y",
          "else_label:"] :=
  (sequence_run
    [([], .decl "x".toList), ("  ".toList, .assign "x".toList "5".toList),
      ("\n".toList, .cond "x".toList (.decl "y".toList))]
    " \n".toList (by decide) (by decide)).1

theorem parseDeclaration_wellFormed (cur : Token) (src : List Char)
    (h : declWellFormed src = true) :
    parseDeclaration cur src
      = .ok (.node NODE_DECL (getNextToken src).1.value .NULL .NULL)
          (getNextToken (getNextToken src).2).1 (getNextToken (getNextToken src).2).2 := by
  simp only [declWellFormed, Bool.and_eq_true, decide_eq_true_eq] at h
  simp [parseDeclaration, h.1, h.2, newNode]

theorem parseDeclaration_malformed (cur : Token) (src : List Char)
    (h : declWellFormed src = false) :
    parseDeclaration cur src = .exit (declDiagnostic src) := by
  simp only [declWellFormed, Bool.and_eq_false_iff, decide_eq_false_iff_not] at h
  by_cases h1 : (getNextToken src).1.type = TOK_ID
  · have h2 : (getNextToken (getNextToken src).2).1.type ≠ TOK_SEMICOLON := by
      rcases h with h | h
      · exact absurd h1 h
      · exact h
    simp [parseDeclaration, declDiagnostic, h1, h2]
  · simp [parseDeclaration, declDiagnostic, h1]

theorem parseStatement_int (fuel : Nat) (cur : Token) (s : List Char)
    (hs : (getNextToken s).1.type = TOK_INT) :
    parseStatement (fuel + 1) cur s
      = parseDeclaration (getNextToken s).1 (getNextToken s).2 := by
  simp [parseStatement, hs]

/-- C5: after an `int` token, `parseDeclaration` returns a Declaration node
(named by the identifier) exactly when the next token is an identifier and
the one after it a semicolon, and calls `exit(1)` with a diagnostic in every
other case.  When the run reaches such a malformed declaration after the
statements of a program `ps` (or after any lines `out`), it ends with that
syntax error and its output holds the lines of the earlier statements only. -/
theorem malformed_declaration (ps : List (List Char × Stmt)) (s : List Char)
    (hps : programValid ps = true) (hs : (getNextToken s).1.type = TOK_INT) :
    (∀ (cur : Token) (src : List Char),
        (declWellFormed src = true →
          parseDeclaration cur src
            = .ok (.node NODE_DECL (getNextToken src).1.value .NULL .NULL)
                (getNextToken (getNextToken src).2).1 (getNextToken (getNextToken src).2).2)
        ∧ (declWellFormed src = false →
          parseDeclaration cur src = .exit (declDiagnostic src)))
      ∧ (declWellFormed (getNextToken s).2 = false →
          (∀ (fuel : Nat) (cur : Token),
            parseStatement (fuel + 1) cur s = .exit (declDiagnostic (getNextToken s).2))
          ∧ (∀ (n : Nat) (cur : Token) (out : List String),
            mainLoop (n + 1) cur s out
              = .syntaxError out (declDiagnostic (getNextToken s).2))
          ∧ main (programText ps s)
              = .syntaxError (programCode ps) (declDiagnostic (getNextToken s).2)) := by
  refine ⟨fun cur src => ⟨parseDeclaration_wellFormed cur src,
    parseDeclaration_malformed cur src⟩, fun hbad => ?_⟩
  have hstmt : ∀ (fuel : Nat) (cur : Token),
      parseStatement (fuel + 1) cur s = .exit (declDiagnostic (getNextToken s).2) := by
    intro fuel cur
    rw [parseStatement_int fuel cur s hs, parseDeclaration_malformed _ _ hbad]
  have hloop : ∀ (n : Nat) (cur : Token) (out : List String),
      mainLoop (n + 1) cur s out = .syntaxError out (declDiagnostic (getNextToken s).2) := by
    intro n cur out
    rw [mainLoop, stmtFuel, hstmt]
  refine ⟨hstmt, hloop, ?_⟩
  have hlen := programText_length ps s
  obtain ⟨n, hn⟩ : ∃ n, (programText ps s).length + 1 = (n + 1) + ps.length :=
    ⟨(programText ps s).length - ps.length, by omega⟩
  rw [main, hn, mainLoop_program ps hps, hloop]
  simp

theorem malformed_declaration_witness :
    main "int x; int y".toList = .syntaxError ["VAR x"] "Syntax Error: Expected ';'" :=
  ((malformed_declaration [([], .decl "x".toList)] " int y".toList (by decide) (by decide)).2
    (by decide)).2.2

/-- C9: when the input starts, after optional whitespace, with a maximal run
`w` of ASCII letters and digits that begins with a letter and is longer than
99 characters, `getNextToken` returns an identifier token whose text is the
first 99 characters of `w`, and the unread source is what follows the whole
of `w`. -/
theorem long_identifier_truncated (ws w rest : List Char) (hws : ws.all isspace = true)
    (hw : isWord w = true) (hlen : 99 < w.length) (hrest : stopsAt isalnum rest = true) :
    getNextToken (ws ++ w ++ rest) = (⟨TOK_ID, w.take 99⟩, rest) := by
  cases w with
  | nil => simp [isWord] at hw
  | cons c t =>
    simp only [isWord, Bool.and_eq_true] at hw
    rw [List.append_assoc, getNextToken_blank _ _ hws, getNextToken_word c t rest hw.1 hw.2 hrest]
    have hl : (List.take 99 (c :: t)).length = 99 := by
      rw [List.length_take]
      omega
    have h1 : List.take 99 (c :: t) ≠ ['i', 'n', 't'] := by
      intro h
      rw [h] at hl
      simp at hl
    have h2 : List.take 99 (c :: t) ≠ ['i', 'f'] := by
      intro h
      rw [h] at hl
      simp at hl
    rw [wordType, if_neg h1, if_neg h2]

theorem long_identifier_truncated_witness :
    getNextToken (" \t".toList ++ ('x' :: List.replicate 100 '1') ++ "=1;".toList)
      = (⟨TOK_ID, List.take 99 ('x' :: List.replicate 100 '1')⟩, "=1;".toList) :=
  long_identifier_truncated " \t".toList ('x' :: List.replicate 100 '1') "=1;".toList
    (by decide) (by decide) (by decide) (by decide)

/-- C10: for every input made only of whitespace characters, the empty input
included, `getNextToken` returns the end-of-input token with empty text and
the run prints no line and ends normally. -/
theorem whitespace_only_input (ws : List Char) (hws : ws.all isspace = true) :
    getNextToken ws = (⟨TOK_END, []⟩, []) ∧ main ws = .finished [] :=
  ⟨getNextToken_all_blank ws hws, mainLoop_blank _ _ _ _ hws⟩

theorem whitespace_only_input_witness :
    getNextToken " \t\n\x0b\x0c\r ".toList = (⟨TOK_END, []⟩, [])
      ∧ main " \t\n\x0b\x0c\r ".toList = .finished [] :=
  whitespace_only_input " \t\n\x0b\x0c\r ".toList (by decide)

/-! ## Blocks -/

theorem setRightAt_link (prev : List ASTNode) (p t : ASTNode) :
    setRightAt prev.length (link (p :: prev)) t = link (p :: (prev ++ [t])) := by
  induction prev generalizing p with
  | nil => simp [link, setRightAt]
  | cons q qs ih =>
    cases p with
    | NULL => simp [link, setRight, setRightAt]
    | node ty d l r => simp [link, setRight, setRightAt, ih q]

theorem link_ne_NULL (p : ASTNode) (prev : List ASTNode) (hp : p ≠ .NULL) :
    link (p :: prev) ≠ .NULL := by
  cases p with
  | NULL => exact absurd rfl hp
  | node ty d l r => cases prev <;> simp [link, setRight]

theorem foldl_chainStep_link (ts prev : List ASTNode) (p : ASTNode) (hp : p ≠ .NULL) :
    (ts.foldl chainStep (link (p :: prev), prev.length)).1 = link (p :: (prev ++ ts)) := by
  induction ts generalizing prev with
  | nil => simp
  | cons t ts ih =>
    have h := ih (prev ++ [t])
    rw [List.length_append, List.length_singleton, ← setRightAt_link prev p t] at h
    simp only [List.foldl_cons, chainStep, link_ne_NULL p prev hp, if_false]
    simpa using h

theorem foldl_chainStep_NULL (ts : List ASTNode) (h : ∀ t ∈ ts.head?, t ≠ .NULL) :
    (ts.foldl chainStep (.NULL, 0)).1 = link ts := by
  cases ts with
  | nil => rfl
  | cons p ts =>
    have hp : p ≠ .NULL := h p (by simp)
    have e := foldl_chainStep_link ts [] p hp
    simpa [chainStep, link] using e

theorem Stmt.flat_depth (s : Stmt) (h : s.flat = true) : s.depth = 0 := by
  cases s <;> simp_all [Stmt.flat, Stmt.depth]

theorem Stmt.flat_lastToken (s : Stmt) (h : s.flat = true) :
    s.lastToken = ⟨TOK_SEMICOLON, [';']⟩ := by
  cases s <;> simp_all [Stmt.flat, Stmt.lastToken]

theorem blockLoop_flat (ss : List Stmt) (hv : ss.all (fun s => s.valid && s.flat) = true)
    (fuel : Nat) (hf : ss.length + 2 ≤ fuel) (b : ASTNode) (l : Nat) (cur : Token)
    (rest : List Char) :
    blockLoop fuel b l cur (blockBody ss ++ rest)
      = .ok ((ss.map Stmt.tree).foldl chainStep (b, l)).1 ⟨TOK_RBRACE, [Char.ofNat 125]⟩ rest := by
  induction ss generalizing fuel b l cur with
  | nil =>
    obtain ⟨f, rfl⟩ : ∃ f, fuel = f + 2 := ⟨fuel - 2, by omega⟩
    have h : getNextToken (blockBody [] ++ rest) = (⟨TOK_RBRACE, [Char.ofNat 125]⟩, rest) := rfl
    simp [blockLoop, parseStatement, h]
  | cons s ss ih =>
    obtain ⟨f, rfl⟩ : ∃ f, fuel = f + 1 := ⟨fuel - 1, by omega⟩
    simp only [List.all_cons, Bool.and_eq_true] at hv
    obtain ⟨⟨hs, hflat⟩, hss⟩ := hv
    have e : blockBody (s :: ss) ++ rest = [' '] ++ (s.text ++ (blockBody ss ++ rest)) := by
      simp [blockBody]
    have hp : parseStatement f cur (blockBody (s :: ss) ++ rest)
        = .ok s.tree ⟨TOK_SEMICOLON, [';']⟩ (blockBody ss ++ rest) := by
      rw [e, parseStatement_blank f cur [' '] _ rfl, ← Stmt.flat_lastToken s hflat]
      apply parseStatement_stmt s hs
      rw [Stmt.flat_depth s hflat]
      simp only [List.length_cons] at hf
      omega
    have hih := fun b l => ih hss f (by simp only [List.length_cons] at hf; omega) b l
      ⟨TOK_SEMICOLON, [';']⟩
    by_cases hb : b = .NULL
    · simp [blockLoop, hp, Stmt.tree_ne_NULL, hb, hih, chainStep]
    · simp [blockLoop, hp, Stmt.tree_ne_NULL, hb, hih, chainStep]

theorem parseStatement_block_flat (ss : List Stmt)
    (hv : ss.all (fun s => s.valid && s.flat) = true)
    (fuel : Nat) (hf : ss.length + 3 ≤ fuel) (cur : Token) (rest : List Char) :
    parseStatement fuel cur (blockText ss ++ rest)
      = .ok (link (ss.map Stmt.tree)) ⟨TOK_RBRACE, [Char.ofNat 125]⟩ rest := by
  obtain ⟨f, rfl⟩ : ∃ f, fuel = f + 1 := ⟨fuel - 1, by omega⟩
  have h : getNextToken (blockText ss ++ rest)
      = (⟨TOK_LBRACE, [Char.ofNat 123]⟩, blockBody ss ++ rest) := rfl
  rw [← foldl_chainStep_NULL (ss.map Stmt.tree)]
  · simp [parseStatement, h, blockLoop_flat ss hv f (by omega)]
  · intro t ht
    cases ss with
    | nil => simp at ht
    | cons s ss =>
      simp only [List.map_cons, List.head?_cons, Option.mem_def, Option.some.injEq] at ht
      rw [← ht]
      exact Stmt.tree_ne_NULL s

theorem link_decl (names : List (List Char)) :
    link ((names.map Stmt.decl).map Stmt.tree) = declChain names := by
  induction names with
  | nil => rfl
  | cons a rest ih =>
    cases rest with
    | nil => simp [link, declChain, Stmt.tree]
    | cons b rest =>
      simp only [List.map_cons] at ih
      simp only [List.map_cons, link, ih]
      simp [Stmt.tree, setRight, declChain]

/-- C6: for identifiers `a1 ... an`, one `parseStatement` call on the block
`{ int a1; ... int an; }` returns the Declaration node of `a1`, whose right
children are, in order, the Declaration nodes of `a2 ... an`, the last one
without a right child; on the empty block `{ }` the call returns `NULL`. -/
theorem block_declaration_chain (names : List (List Char))
    (hn : names.all isIdent = true) (fuel : Nat) (hf : names.length + 3 ≤ fuel)
    (cur : Token) (rest : List Char) :
    parseStatement fuel cur (blockText (names.map Stmt.decl) ++ rest)
        = .ok (declChain names) ⟨TOK_RBRACE, [Char.ofNat 125]⟩ rest
      ∧ parseStatement fuel cur ("\x7b \x7d".toList ++ rest)
        = .ok .NULL ⟨TOK_RBRACE, [Char.ofNat 125]⟩ rest := by
  refine ⟨?_, parseStatement_block_flat [] rfl fuel (by simp only [List.length_nil]; omega)
    cur rest⟩
  rw [← link_decl names]
  apply parseStatement_block_flat _ _ fuel (by simpa using hf)
  rw [List.all_eq_true] at hn ⊢
  intro s hs
  obtain ⟨a, ha, rfl⟩ := List.mem_map.mp hs
  simpa [Stmt.valid, Stmt.flat] using hn a ha

theorem block_declaration_chain_witness :
    parseStatement 5 ⟨TOK_END, []⟩ "\x7b int a; int b; \x7d".toList
      = .ok (.node NODE_DECL ['a'] .NULL (.node NODE_DECL ['b'] .NULL .NULL))
          ⟨TOK_RBRACE, [Char.ofNat 125]⟩ [] :=
  (block_declaration_chain ["a".toList, "b".toList] (by decide) 5 (by decide)
    ⟨TOK_END, []⟩ []).1

/-- C7 (what the code does): on `if{e}{ int a; int b; }` and on `if{e}{}`
the parser does not return a Conditional node; `parseConditional` parses a
single statement as the body, then finds a token other than the closing brace
and ends the run with the diagnostic `Syntax Error: Expected '}'`. -/
theorem conditional_body_single_statement (e a b : List Char) (he : isValue e = true)
    (ha : isIdent a = true) (fuel : Nat) (hf : 3 ≤ fuel) (cur : Token) :
    parseStatement fuel cur (condTwoDecls e a b) = .exit "Syntax Error: Expected '\x7d'"
      ∧ parseStatement fuel cur (condEmpty e) = .exit "Syntax Error: Expected '\x7d'"
      ∧ main (condTwoDecls e a b) = .syntaxError [] "Syntax Error: Expected '\x7d'"
      ∧ main (condEmpty e) = .syntaxError [] "Syntax Error: Expected '\x7d'" := by
  have h1 : ∀ s, getNextToken ('i' :: 'f' :: Char.ofNat 123 :: s)
      = (⟨TOK_IF, ['i', 'f']⟩, Char.ofNat 123 :: s) := fun _ => rfl
  have h2 : ∀ s, getNextToken (Char.ofNat 123 :: s) = (⟨TOK_LBRACE, [Char.ofNat 123]⟩, s) :=
    fun _ => rfl
  have h3 : ∀ s, getNextToken (Char.ofNat 125 :: s) = (⟨TOK_RBRACE, [Char.ofNat 125]⟩, s) :=
    fun _ => rfl
  have h4 : ∀ (c : Token) (s : List Char), parseExpression c (e ++ Char.ofNat 125 :: s)
      = .ok (newNode NODE_VAL e) (valueToken e) (Char.ofNat 125 :: s) :=
    fun c s => parseExpression_value c e _ he rfl
  have h5 : ∀ (f : Nat) (c : Token) (r : List Char),
      parseStatement (f + 1) c (' ' :: 'i' :: 'n' :: 't' :: ' ' :: (a ++ ';' :: r))
        = .ok (Stmt.decl a).tree ⟨TOK_SEMICOLON, [';']⟩ r := by
    intro f c r
    have e1 : ' ' :: 'i' :: 'n' :: 't' :: ' ' :: (a ++ ';' :: r)
        = [' '] ++ ((Stmt.decl a).text ++ r) := by simp [Stmt.text]
    rw [e1, parseStatement_blank (f + 1) c [' '] _ rfl]
    exact parseStatement_decl f c a r ha
  have h6 : ∀ s, getNextToken (' ' :: 'i' :: 'n' :: 't' :: ' ' :: s)
      = (⟨TOK_INT, ['i', 'n', 't']⟩, ' ' :: s) := fun _ => rfl
  have e2 : condTwoDecls e a b
      = 'i' :: 'f' :: Char.ofNat 123 :: (e ++ Char.ofNat 125 :: Char.ofNat 123
          :: ' ' :: 'i' :: 'n' :: 't' :: ' ' :: (a ++ ';'
          :: ' ' :: 'i' :: 'n' :: 't' :: ' ' :: (b ++ [';', ' ', Char.ofNat 125]))) := by
    simp [condTwoDecls]
  have e3 : condEmpty e
      = 'i' :: 'f' :: Char.ofNat 123 :: (e ++ [Char.ofNat 125, Char.ofNat 123, Char.ofNat 125]) := by
    simp [condEmpty]
  have p1 : ∀ (f : Nat) (c : Token),
      parseStatement (f + 3) c (condTwoDecls e a b) = .exit "Syntax Error: Expected '\x7d'" := by
    intro f c
    rw [e2, show f + 3 = (f + 1 + 1) + 1 from rfl, parseStatement]
    simp [parseConditional, h1, h2, h3, h4, h5, h6]
  have p2 : ∀ (f : Nat) (c : Token),
      parseStatement (f + 3) c (condEmpty e) = .exit "Syntax Error: Expected '\x7d'" := by
    intro f c
    have h7 : getNextToken [] = (⟨TOK_END, []⟩, []) := rfl
    have h8 : ∀ (k : Token), parseStatement (f + 1) k [Char.ofNat 125]
        = .ok .NULL ⟨TOK_RBRACE, [Char.ofNat 125]⟩ [] := by
      intro k
      simp [parseStatement, h3]
    rw [e3, show f + 3 = (f + 1 + 1) + 1 from rfl, parseStatement]
    simp [parseConditional, h1, h2, h3, h4, h7, h8]
  have m1 : ∀ s : List Char, s ≠ [] → ∃ f, stmtFuel s = f + 3 ∧ s.length + 1 = (s.length - 1) + 2 := by
    intro s hs
    have : 0 < s.length := List.length_pos.mpr hs
    exact ⟨2 * s.length - 2, by simp only [stmtFuel]; omega, by omega⟩
  obtain ⟨f, rfl⟩ : ∃ f, fuel = f + 3 := ⟨fuel - 3, by omega⟩
  refine ⟨p1 f cur, p2 f cur, ?_, ?_⟩
  · obtain ⟨g, hg, hl⟩ := m1 (condTwoDecls e a b) (by rw [e2]; simp)
    rw [main, hl, mainLoop, hg, p1]
  · obtain ⟨g, hg, hl⟩ := m1 (condEmpty e) (by rw [e3]; simp)
    rw [main, hl, mainLoop, hg, p2]

theorem conditional_body_single_statement_witness :
    main "if\x7be\x7d\x7b int a; int b; \x7d".toList
        = .syntaxError [] "Syntax Error: Expected '\x7d'"
      ∧ main "if\x7be\x7d\x7b\x7d".toList = .syntaxError [] "Syntax Error: Expected '\x7d'" :=
  (conditional_body_single_statement "e".toList "a".toList "b".toList (by decide) (by decide)
    3 (by decide) ⟨TOK_END, []⟩).2.2

/-- C8 (amended): for every block `{ s1 s2 ... sn }` of `n >= 1` valid
declarations and assignments in which `s1` is a declaration or `n = 1`,
`parseStatement` returns the chain of the statements and generating code
for it prints exactly the lines of the first statement `s1` alone. -/
theorem block_code_first_statement (s : Stmt) (ss : List Stmt)
    (hv : (s :: ss).all (fun s => s.valid && s.flat) = true)
    (h1 : s.isDecl = true ∨ ss = []) (fuel : Nat) (hf : ss.length + 4 ≤ fuel)
    (cur : Token) (rest : List Char) :
    parseStatement fuel cur (blockText (s :: ss) ++ rest)
        = .ok (link ((s :: ss).map Stmt.tree)) ⟨TOK_RBRACE, [Char.ofNat 125]⟩ rest
      ∧ generateAssembly (link ((s :: ss).map Stmt.tree)) = s.code := by
  refine ⟨parseStatement_block_flat (s :: ss) hv fuel (by simpa using hf) cur rest, ?_⟩
  rcases h1 with h | h
  · cases s with
    | decl x =>
      cases ss with
      | nil => simp [link, Stmt.tree, Stmt.code, generateAssembly]
      | cons s2 ss => simp [link, Stmt.tree, Stmt.code, generateAssembly, setRight]
    | assign x v => simp [Stmt.isDecl] at h
    | cond e body => simp [Stmt.isDecl] at h
  · subst h
    simpa [link] using generateAssembly_tree s

theorem block_code_first_statement_witness :
    generateAssembly (link ([Stmt.decl "a".toList, .assign "x".toList "1".toList].map Stmt.tree))
      = ["VAR a"] :=
  (block_code_first_statement (.decl "a".toList) [.assign "x".toList "1".toList] (by decide)
    (Or.inl rfl) 5 (by decide) ⟨TOK_END, []⟩ []).2

/-- C8 as stated fails on the block `{ x = 1; y = 2; }`: linking `y = 2;`
after `x = 1;` replaces the value of the first assignment, and the generated
lines are `LOAD 2`, `STORE y`, `STORE x`, not the lines `LOAD 1`, `STORE x`
of the first statement alone. -/
theorem block_code_first_statement_counterexample :
    parseStatement (stmtFuel "\x7b x = 1; y = 2; \x7d".toList) ⟨TOK_END, []⟩
        "\x7b x = 1; y = 2; \x7d".toList
        = .ok (.node NODE_ASSIGNMENT ['x'] .NULL
                (.node NODE_ASSIGNMENT ['y'] .NULL (.node NODE_VAL ['2'] .NULL .NULL)))
            ⟨TOK_RBRACE, [Char.ofNat 125]⟩ []
      ∧ generateAssembly (.node NODE_ASSIGNMENT ['x'] .NULL
                (.node NODE_ASSIGNMENT ['y'] .NULL (.node NODE_VAL ['2'] .NULL .NULL)))
          = ["LOAD 2", "STORE y", "STORE x"]
      ∧ main "x = 1;".toList = .finished ["LOAD 1", "STORE x"]
      ∧ ["LOAD 2", "STORE y", "STORE x"] ≠ ["LOAD 1", "STORE x"] := by
  decide

/-! ## Tokens and the end of the input -/

theorem wordType_ne_END (v : List Char) : wordType v ≠ TOK_END := by
  unfold wordType
  split_ifs <;> simp

theorem startsToken_of_isspace {c : Char} (h : isspace c = true) : startsToken c = false := by
  have ha : isalpha c = false := by
    cases hx : isalpha c with
    | false => rfl
    | true => rw [isalpha_not_isspace hx] at h; exact absurd h (by decide)
  have hd : isdigit c = false := by
    cases hx : isdigit c with
    | false => rfl
    | true => rw [isdigit_not_isspace hx] at h; exact absurd h (by decide)
  have hne : ∀ d : Char, isspace d = false → c ≠ d := by
    intro d hd2 hcd
    rw [hcd, hd2] at h
    exact absurd h (by decide)
  simp [startsToken, ha, hd, hne '=' rfl, hne '+' rfl, hne '-' rfl, hne (Char.ofNat 123) rfl,
    hne (Char.ofNat 125) rfl, hne ';' rfl]

theorem getNextToken_END_iff (s : List Char) :
    (getNextToken s).1.type = TOK_END ↔ s.all (fun c => !startsToken c) = true := by
  induction s with
  | nil => simp [getNextToken]
  | cons c rest ih =>
    rw [getNextToken]
    by_cases hs : isspace c = true
    · rw [if_pos hs]
      simp [ih, startsToken_of_isspace hs]
    rw [if_neg hs]
    by_cases ha : isalpha c = true
    · rw [if_pos ha]
      simp [wordType_ne_END, startsToken, ha]
    rw [if_neg ha]
    by_cases hd : isdigit c = true
    · rw [if_pos hd]
      simp [startsToken, hd]
    rw [if_neg hd]
    by_cases h1 : c = '='
    · rw [if_pos h1]
      simp [startsToken, h1]
    rw [if_neg h1]
    by_cases h2 : c = '+'
    · rw [if_pos h2]
      simp [startsToken, h2]
    rw [if_neg h2]
    by_cases h3 : c = '-'
    · rw [if_pos h3]
      simp [startsToken, h3]
    rw [if_neg h3]
    by_cases h4 : c = Char.ofNat 123
    · rw [if_pos h4]
      simp [startsToken, h4]
    rw [if_neg h4]
    by_cases h5 : c = Char.ofNat 125
    · rw [if_pos h5]
      simp [startsToken, h5]
    rw [if_neg h5]
    by_cases h6 : c = ';'
    · rw [if_pos h6]
      simp [startsToken, h6]
    rw [if_neg h6]
    simp [startsToken, ha, hd, h1, h2, h3, h4, h5, h6, ih]

theorem getNextToken_END_eq (s : List Char) (h : (getNextToken s).1.type = TOK_END) :
    getNextToken s = (⟨TOK_END, []⟩, []) := by
  induction s with
  | nil => rfl
  | cons c rest ih =>
    rw [getNextToken] at h ⊢
    by_cases hs : isspace c = true
    · rw [if_pos hs] at h ⊢
      exact ih h
    rw [if_neg hs] at h ⊢
    by_cases ha : isalpha c = true
    · rw [if_pos ha] at h
      exact absurd h (wordType_ne_END _)
    rw [if_neg ha] at h ⊢
    by_cases hd : isdigit c = true
    · rw [if_pos hd] at h
      exact absurd h (by simp)
    rw [if_neg hd] at h ⊢
    by_cases h1 : c = '='
    · rw [if_pos h1] at h
      exact absurd h (by simp)
    rw [if_neg h1] at h ⊢
    by_cases h2 : c = '+'
    · rw [if_pos h2] at h
      exact absurd h (by simp)
    rw [if_neg h2] at h ⊢
    by_cases h3 : c = '-'
    · rw [if_pos h3] at h
      exact absurd h (by simp)
    rw [if_neg h3] at h ⊢
    by_cases h4 : c = Char.ofNat 123
    · rw [if_pos h4] at h
      exact absurd h (by simp)
    rw [if_neg h4] at h ⊢
    by_cases h5 : c = Char.ofNat 125
    · rw [if_pos h5] at h
      exact absurd h (by simp)
    rw [if_neg h5] at h ⊢
    by_cases h6 : c = ';'
    · rw [if_pos h6] at h
      exact absurd h (by simp)
    rw [if_neg h6] at h ⊢
    exact ih h

/-- C11: `getNextToken` is total, and the token it returns is the
end-of-input token exactly when the unread source holds no ASCII letter, no
digit and none of `= + - { } ;`; in that case its text is empty, the source
is consumed to its end and the next call returns end-of-input again.  In
every other case the token has another type. -/
theorem end_token_iff_no_token_start (s : List Char) :
    ((getNextToken s).1.type = TOK_END ↔ s.all (fun c => !startsToken c) = true)
      ∧ (s.all (fun c => !startsToken c) = true →
          getNextToken s = (⟨TOK_END, []⟩, [])
            ∧ getNextToken (getNextToken s).2 = (⟨TOK_END, []⟩, []))
      ∧ (s.all (fun c => !startsToken c) = false → (getNextToken s).1.type ≠ TOK_END) := by
  refine ⟨getNextToken_END_iff s, ?_, ?_⟩
  · intro h
    have e := getNextToken_END_eq s ((getNextToken_END_iff s).mpr h)
    rw [e]
    exact ⟨rfl, rfl⟩
  · intro h hEnd
    rw [(getNextToken_END_iff s).mp hEnd] at h
    exact absurd h (by decide)

theorem end_token_iff_no_token_start_witness :
    getNextToken " (*) \n<>".toList = (⟨TOK_END, []⟩, [])
      ∧ (getNextToken " (*) x".toList).1.type ≠ TOK_END :=
  ⟨((end_token_iff_no_token_start " (*) \n<>".toList).2.1 (by decide)).1,
    (end_token_iff_no_token_start " (*) x".toList).2.2 (by decide)⟩

/-- C12: when the input is a word `w` of at most 99 characters (an ASCII
letter followed by letters and digits), optionally preceded by whitespace and
followed by `rest` that is empty or begins with a character that is neither a
letter nor a digit, `getNextToken` returns a token whose text is `w` and
leaves exactly `rest` unread; the token is the `int` keyword iff `w` is
`int`, the `if` keyword iff `w` is `if`, and an identifier otherwise. -/
theorem word_token (ws w rest : List Char) (hws : ws.all isspace = true)
    (hw : isWord w = true) (hlen : w.length ≤ 99) (hrest : stopsAt isalnum rest = true) :
    (getNextToken (ws ++ w ++ rest)).1.value = w
      ∧ (getNextToken (ws ++ w ++ rest)).2 = rest
      ∧ ((getNextToken (ws ++ w ++ rest)).1.type = TOK_INT ↔ w = "int".toList)
      ∧ ((getNextToken (ws ++ w ++ rest)).1.type = TOK_IF ↔ w = "if".toList)
      ∧ (w ≠ "int".toList → w ≠ "if".toList →
          (getNextToken (ws ++ w ++ rest)).1.type = TOK_ID) := by
  have e : getNextToken (ws ++ w ++ rest) = (⟨wordType w, w⟩, rest) := by
    cases w with
    | nil => simp [isWord] at hw
    | cons c t =>
      simp only [isWord, Bool.and_eq_true] at hw
      rw [List.append_assoc, getNextToken_blank _ _ hws,
        getNextToken_word c t rest hw.1 hw.2 hrest, List.take_of_length_le hlen]
  have i1 : "int".toList = ['i', 'n', 't'] := rfl
  have i2 : "if".toList = ['i', 'f'] := rfl
  rw [e, i1, i2]
  refine ⟨rfl, rfl, ?_, ?_, ?_⟩
  · by_cases h : w = ['i', 'n', 't']
    · simp [wordType, h]
    · by_cases h2 : w = ['i', 'f'] <;> simp [wordType, h, h2]
  · by_cases h : w = ['i', 'n', 't']
    · simp [wordType, h]
    · by_cases h2 : w = ['i', 'f'] <;> simp [wordType, h, h2]
  · intro h h2
    simp [wordType, h, h2]

theorem word_token_witness :
    ((getNextToken " int x;".toList).1.value = "int".toList
        ∧ (getNextToken " int x;".toList).2 = " x;".toList
        ∧ (getNextToken " int x;".toList).1.type = TOK_INT)
      ∧ ((getNextToken "if\x7b".toList).1.type = TOK_IF
        ∧ (getNextToken "if\x7b".toList).2 = "\x7b".toList)
      ∧ (getNextToken "Int".toList).1.type = TOK_ID
      ∧ (getNextToken "integer=".toList).1.type = TOK_ID
      ∧ ((getNextToken "if1 ".toList).1.type = TOK_ID
        ∧ (getNextToken "if1 ".toList).1.value = "if1".toList
        ∧ (getNextToken "if1 ".toList).2 = " ".toList) := by
  have a := word_token " ".toList "int".toList " x;".toList (by decide) (by decide) (by decide)
    (by decide)
  have b := word_token [] "if".toList "\x7b".toList (by decide) (by decide) (by decide)
    (by decide)
  have c := word_token [] "Int".toList [] (by decide) (by decide) (by decide) (by decide)
  have d := word_token [] "integer".toList "=".toList (by decide) (by decide) (by decide)
    (by decide)
  have e := word_token [] "if1".toList " ".toList (by decide) (by decide) (by decide)
    (by decide)
  exact ⟨⟨a.1, a.2.1, a.2.2.1.mpr rfl⟩, ⟨b.2.2.2.1.mpr rfl, b.2.1⟩,
    c.2.2.2.2 (by decide) (by decide), d.2.2.2.2 (by decide) (by decide),
    ⟨e.2.2.2.2 (by decide) (by decide), e.1, e.2.1⟩⟩

/-! ## Expression positions that hold no value -/

theorem nonValue_token (T : List Char) (hT : T ∈ nonValueTexts) :
    ∃ ty, ty ≠ TOK_NUM ∧ ty ≠ TOK_ID
      ∧ ∀ r, getNextToken (' ' :: (T ++ ' ' :: r)) = (⟨ty, T⟩, ' ' :: r) := by
  simp only [nonValueTexts, List.mem_cons, List.mem_singleton, List.not_mem_nil,
    or_false] at hT
  rcases hT with rfl | rfl | rfl | rfl | rfl | rfl | rfl | rfl
  · exact ⟨TOK_INT, by decide, by decide, fun _ => rfl⟩
  · exact ⟨TOK_IF, by decide, by decide, fun _ => rfl⟩
  · exact ⟨TOK_ASSIGN, by decide, by decide, fun _ => rfl⟩
  · exact ⟨TOK_PLUS, by decide, by decide, fun _ => rfl⟩
  · exact ⟨TOK_MINUS, by decide, by decide, fun _ => rfl⟩
  · exact ⟨TOK_LBRACE, by decide, by decide, fun _ => rfl⟩
  · exact ⟨TOK_RBRACE, by decide, by decide, fun _ => rfl⟩
  · exact ⟨TOK_SEMICOLON, by decide, by decide, fun _ => rfl⟩

theorem parseExpression_nonValue (cur : Token) (src : List Char)
    (h1 : (getNextToken src).1.type ≠ TOK_NUM) (h2 : (getNextToken src).1.type ≠ TOK_ID) :
    parseExpression cur src = .ok .NULL (getNextToken src).1 (getNextToken src).2 := by
  simp [parseExpression, h1, h2]

theorem main_single (s : List Char) (t : ASTNode) (c : Token) (hs : s ≠ [])
    (ht : t ≠ .NULL) (h : parseStatement (stmtFuel s) ⟨TOK_END, []⟩ s = .ok t c []) :
    main s = .finished (generateAssembly t) := by
  have hl : 0 < s.length := List.length_pos.mpr hs
  obtain ⟨n, hn⟩ : ∃ n, s.length + 1 = n + 1 + 1 := ⟨s.length - 1, by omega⟩
  rw [main, hn, mainLoop, h]
  simp only [ht, if_false, List.nil_append]
  exact mainLoop_blank n c [] _ rfl

theorem stmtFuel_pos (s : List Char) (k : Nat) (h : k ≤ 2 * s.length + 1) :
    ∃ f, stmtFuel s = f + k := ⟨2 * s.length + 1 - k, by simp only [stmtFuel]; omega⟩

theorem parseStatement_assignNonValue (x T : List Char) (hx : isIdent x = true)
    (hT : T ∈ nonValueTexts) (fuel : Nat) (cur : Token) (rest : List Char) :
    parseStatement (fuel + 1) cur (assignNonValue x T ++ rest)
      = .ok (.node NODE_ASSIGNMENT x .NULL .NULL) ⟨TOK_SEMICOLON, [';']⟩ rest := by
  obtain ⟨ty, hn, hi, htok⟩ := nonValue_token T hT
  have e : assignNonValue x T ++ rest
      = x ++ ' ' :: '=' :: (' ' :: (T ++ ' ' :: ';' :: rest)) := by
    simp [assignNonValue]
  have h1 : getNextToken (x ++ ' ' :: '=' :: (' ' :: (T ++ ' ' :: ';' :: rest)))
      = (⟨TOK_ID, x⟩, ' ' :: '=' :: (' ' :: (T ++ ' ' :: ';' :: rest))) :=
    getNextToken_ident x _ hx rfl
  have h2 : ∀ s, getNextToken (' ' :: '=' :: s) = (⟨TOK_ASSIGN, ['=']⟩, s) := fun _ => rfl
  have h3 : ∀ c, parseExpression c (' ' :: (T ++ ' ' :: ';' :: rest))
      = .ok .NULL ⟨ty, T⟩ (' ' :: ';' :: rest) := by
    intro c
    have h := parseExpression_nonValue c (' ' :: (T ++ ' ' :: ';' :: rest))
    rw [htok] at h
    exact h hn hi
  have h4 : getNextToken (' ' :: ';' :: rest) = (⟨TOK_SEMICOLON, [';']⟩, rest) := rfl
  rw [e, parseStatement]
  simp [parseAssignment, h1, h2, h3, h4, newNode, setRight]

/-- C14: for every identifier `x` and every token text `T` among
`int if = + - { } ;`, `parseExpression` reads exactly that one token and
returns `NULL` without an error, `parseStatement` on `x = T ;` returns the
Assignment node named `x` with no right child, and the run on `x = T ;` ends
normally after the single line `STORE x`. -/
theorem assignment_non_value (x T : List Char) (hx : isIdent x = true)
    (hT : T ∈ nonValueTexts) :
    (∃ ty, ty ≠ TOK_NUM ∧ ty ≠ TOK_ID ∧ ∀ (cur : Token) (rest : List Char),
        parseExpression cur (' ' :: (T ++ ' ' :: rest)) = .ok .NULL ⟨ty, T⟩ (' ' :: rest))
      ∧ (∀ (fuel : Nat) (cur : Token) (rest : List Char),
          parseStatement (fuel + 1) cur (assignNonValue x T ++ rest)
            = .ok (.node NODE_ASSIGNMENT x .NULL .NULL) ⟨TOK_SEMICOLON, [';']⟩ rest)
      ∧ main (assignNonValue x T) = .finished ["STORE " ++ String.mk x] := by
  refine ⟨?_, parseStatement_assignNonValue x T hx hT, ?_⟩
  · obtain ⟨ty, hn, hi, htok⟩ := nonValue_token T hT
    refine ⟨ty, hn, hi, fun cur rest => ?_⟩
    have h := parseExpression_nonValue cur (' ' :: (T ++ ' ' :: rest))
    rw [htok] at h
    exact h hn hi
  · have hne : assignNonValue x T ≠ [] := by simp [assignNonValue]
    obtain ⟨f, hf⟩ := stmtFuel_pos (assignNonValue x T) 1 (by omega)
    have h := parseStatement_assignNonValue x T hx hT f ⟨TOK_END, []⟩ []
    rw [List.append_nil, ← hf] at h
    have m := main_single _ _ _ hne (by simp) h
    simpa [generateAssembly] using m

theorem assignment_non_value_witness :
    main "x = int ;".toList = .finished ["STORE x"]
      ∧ main "x = \x7d ;".toList = .finished ["STORE x"]
      ∧ main "x = ; ;".toList = .finished ["STORE x"] :=
  ⟨(assignment_non_value "x".toList "int".toList (by decide) (by decide)).2.2,
    (assignment_non_value "x".toList "\x7d".toList (by decide) (by decide)).2.2,
    (assignment_non_value "x".toList ";".toList (by decide) (by decide)).2.2⟩

theorem parseStatement_condNonValue (T a : List Char) (hT : T ∈ nonValueTexts)
    (ha : isIdent a = true) (fuel : Nat) (cur : Token) (rest : List Char) :
    parseStatement (fuel + 3) cur (condNonValue T a ++ rest)
      = .ok (.node NODE_COND [] .NULL (.node NODE_DECL a .NULL .NULL))
          ⟨TOK_RBRACE, [Char.ofNat 125]⟩ rest := by
  obtain ⟨ty, hn, hi, htok⟩ := nonValue_token T hT
  have e : condNonValue T a ++ rest
      = 'i' :: 'f' :: Char.ofNat 123 :: (' ' :: (T ++ ' ' :: Char.ofNat 125 :: Char.ofNat 123
          :: ' ' :: 'i' :: 'n' :: 't' :: ' ' :: (a ++ ';' :: ' ' :: Char.ofNat 125 :: rest))) := by
    simp [condNonValue]
  have h1 : ∀ s, getNextToken ('i' :: 'f' :: Char.ofNat 123 :: s)
      = (⟨TOK_IF, ['i', 'f']⟩, Char.ofNat 123 :: s) := fun _ => rfl
  have h2 : ∀ s, getNextToken (Char.ofNat 123 :: s) = (⟨TOK_LBRACE, [Char.ofNat 123]⟩, s) :=
    fun _ => rfl
  have h3 : ∀ s, getNextToken (' ' :: Char.ofNat 125 :: s)
      = (⟨TOK_RBRACE, [Char.ofNat 125]⟩, s) := fun _ => rfl
  have h4 : ∀ (c : Token) (s : List Char), parseExpression c (' ' :: (T ++ ' ' :: s))
      = .ok .NULL ⟨ty, T⟩ (' ' :: s) := by
    intro c s
    have h := parseExpression_nonValue c (' ' :: (T ++ ' ' :: s))
    rw [htok] at h
    exact h hn hi
  have h5 : ∀ (c : Token) (r : List Char),
      parseStatement (fuel + 1) c (' ' :: 'i' :: 'n' :: 't' :: ' ' :: (a ++ ';' :: r))
        = .ok (Stmt.decl a).tree ⟨TOK_SEMICOLON, [';']⟩ r := by
    intro c r
    have e1 : ' ' :: 'i' :: 'n' :: 't' :: ' ' :: (a ++ ';' :: r)
        = [' '] ++ ((Stmt.decl a).text ++ r) := by simp [Stmt.text]
    rw [e1, parseStatement_blank (fuel + 1) c [' '] _ rfl]
    exact parseStatement_decl fuel c a r ha
  rw [e, show fuel + 3 = (fuel + 1 + 1) + 1 from rfl, parseStatement]
  simp [parseConditional, h1, h2, h3, h4, h5, newNode, setLeft, setRight, Stmt.tree]

/-- C15: for every token text `T` among `int if = + - { } ;` and every
identifier `a`, the run on `if{ T }{ int a; }` ends normally and prints
exactly `JZ else_label`, `VAR a`, `else_label:`: the missing condition is no
error and no `LOAD` line precedes the jump. -/
theorem conditional_non_value (T a : List Char) (hT : T ∈ nonValueTexts)
    (ha : isIdent a = true) :
    main (condNonValue T a)
      = .finished ["JZ else_label", "VAR " ++ String.mk a, "else_label:"] := by
  have hne : condNonValue T a ≠ [] := by simp [condNonValue]
  have hlen : 3 ≤ 2 * (condNonValue T a).length + 1 := by
    have : 0 < (condNonValue T a).length := List.length_pos.mpr hne
    omega
  obtain ⟨f, hf⟩ := stmtFuel_pos (condNonValue T a) 3 hlen
  have h := parseStatement_condNonValue T a hT ha f ⟨TOK_END, []⟩ []
  rw [List.append_nil, ← hf] at h
  have m := main_single _ _ _ hne (by simp) h
  simpa [generateAssembly] using m

theorem conditional_non_value_witness :
    main "if\x7b + \x7d\x7b int a; \x7d".toList
        = .finished ["JZ else_label", "VAR a", "else_label:"]
      ∧ main "if\x7b \x7d \x7d\x7b int a; \x7d".toList
        = .finished ["JZ else_label", "VAR a", "else_label:"] :=
  ⟨conditional_non_value "+".toList "a".toList (by decide) (by decide),
    conditional_non_value "\x7d".toList "a".toList (by decide) (by decide)⟩

/-! ## Blocks of assignments, and conditionals inside a block -/

theorem link_assign (ps : List (List Char × List Char)) :
    link ((ps.map (fun p => Stmt.assign p.1 p.2)).map Stmt.tree) = assignChain ps := by
  induction ps with
  | nil => rfl
  | cons a rest ih =>
    obtain ⟨x, v⟩ := a
    cases rest with
    | nil => simp [link, assignChain, Stmt.tree]
    | cons b rest =>
      simp only [List.map_cons] at ih
      simp only [List.map_cons, link, ih]
      simp [Stmt.tree, setRight, assignChain]

theorem generateAssembly_assignChain (ps : List (List Char × List Char)) :
    generateAssembly (assignChain ps) = assignBlockCode ps := by
  induction ps with
  | nil => rfl
  | cons a rest ih =>
    obtain ⟨x, v⟩ := a
    cases rest with
    | nil => simp [assignChain, assignBlockCode, generateAssembly]
    | cons b rest =>
      simp only [assignChain, generateAssembly, ih]
      simp [assignBlockCode, List.getLast?_cons_cons]

/-- C17: for every block `{ x1 = v1; x2 = v2; ... xn = vn; }` of valid
assignments, `parseStatement` returns the Assignment node of `x1` whose right
child is the Assignment node of `x2`, and so on, only the last node keeping
its value node; generating code for it prints `LOAD vn`, `STORE xn`,
`STORE x(n-1)`, ..., `STORE x1`, with no `LOAD` for `v1 ... v(n-1)`. -/
theorem block_assignment_chain (ps : List (List Char × List Char))
    (hps : ps.all (fun p => isIdent p.1 && isValue p.2) = true)
    (fuel : Nat) (hf : ps.length + 3 ≤ fuel) (cur : Token) (rest : List Char) :
    parseStatement fuel cur (blockText (ps.map (fun p => Stmt.assign p.1 p.2)) ++ rest)
        = .ok (assignChain ps) ⟨TOK_RBRACE, [Char.ofNat 125]⟩ rest
      ∧ generateAssembly (assignChain ps) = assignBlockCode ps := by
  refine ⟨?_, generateAssembly_assignChain ps⟩
  rw [← link_assign ps]
  apply parseStatement_block_flat _ _ fuel (by simpa using hf)
  rw [List.all_eq_true] at hps ⊢
  intro s hs
  obtain ⟨p, hp, rfl⟩ := List.mem_map.mp hs
  simpa [Stmt.valid, Stmt.flat] using hps p hp

theorem block_assignment_chain_witness :
    parseStatement 6 ⟨TOK_END, []⟩ "\x7b x = 1; y = 2; z = w; \x7d".toList
        = .ok (.node NODE_ASSIGNMENT ['x'] .NULL (.node NODE_ASSIGNMENT ['y'] .NULL
            (.node NODE_ASSIGNMENT ['z'] .NULL (.node NODE_VAL ['w'] .NULL .NULL))))
          ⟨TOK_RBRACE, [Char.ofNat 125]⟩ []
      ∧ generateAssembly (assignChain
          [("x".toList, "1".toList), ("y".toList, "2".toList), ("z".toList, "w".toList)])
        = ["LOAD w", "STORE z", "STORE y", "STORE x"] :=
  block_assignment_chain
    [("x".toList, "1".toList), ("y".toList, "2".toList), ("z".toList, "w".toList)]
    (by decide) 6 (by decide) ⟨TOK_END, []⟩ []

theorem blockLoop_current (fuel : Nat) (b : ASTNode) (l : Nat) (c1 c2 : Token)
    (s : List Char) : blockLoop fuel b l c1 s = blockLoop fuel b l c2 s := by
  cases fuel with
  | zero => simp [blockLoop]
  | succ f => rw [blockLoop, blockLoop, parseStatement_current f c1 c2 s]

theorem blockLoop_flat_then (ss : List Stmt)
    (hv : ss.all (fun s => s.valid && s.flat) = true) (fuel : Nat) (hf : 1 ≤ fuel)
    (b : ASTNode) (l : Nat) (cur : Token) (tail : List Char) :
    blockLoop (fuel + ss.length) b l cur (stmtsText ss ++ tail)
      = blockLoop fuel ((ss.map Stmt.tree).foldl chainStep (b, l)).1
          ((ss.map Stmt.tree).foldl chainStep (b, l)).2 cur tail := by
  induction ss generalizing b l cur with
  | nil => simp [stmtsText]
  | cons s ss ih =>
    simp only [List.all_cons, Bool.and_eq_true] at hv
    obtain ⟨⟨hs, hflat⟩, hss⟩ := hv
    have e : stmtsText (s :: ss) ++ tail = [' '] ++ (s.text ++ (stmtsText ss ++ tail)) := by
      simp [stmtsText]
    have hp : parseStatement (fuel + ss.length) cur (stmtsText (s :: ss) ++ tail)
        = .ok s.tree ⟨TOK_SEMICOLON, [';']⟩ (stmtsText ss ++ tail) := by
      rw [e, parseStatement_blank _ cur [' '] _ rfl, ← Stmt.flat_lastToken s hflat]
      apply parseStatement_stmt s hs
      rw [Stmt.flat_depth s hflat]
      omega
    have hih := fun b l => ih hss b l ⟨TOK_SEMICOLON, [';']⟩
    rw [List.length_cons, ← Nat.add_assoc, blockLoop, hp]
    by_cases hb : b = .NULL
    · simp only [Stmt.tree_ne_NULL, false_or, hb, if_true, List.map_cons, List.foldl_cons,
        chainStep, reduceCtorEq, if_false]
      rw [hih]
      exact blockLoop_current _ _ _ _ _ _
    · simp only [Stmt.tree_ne_NULL, false_or, hb, List.map_cons, List.foldl_cons,
        chainStep, reduceCtorEq, if_false]
      rw [hih]
      exact blockLoop_current _ _ _ _ _ _

theorem Stmt.isCond_lastToken (C : Stmt) (h : C.isCond = true) :
    C.lastToken = ⟨TOK_RBRACE, [Char.ofNat 125]⟩ := by
  cases C <;> simp_all [Stmt.isCond, Stmt.lastToken]

theorem hasCond_declChain (ds : List (List Char)) : hasCond (declChain ds) = false := by
  induction ds with
  | nil => rfl
  | cons a rest ih => simp [declChain, hasCond, ih]

theorem parseStatement_blockUpToCond (ds : List (List Char)) (C : Stmt) (rest : List Char)
    (hds : ds.all isIdent = true) (hC : C.valid = true) (hcond : C.isCond = true)
    (fuel : Nat) (hf : ds.length + 2 * C.depth + 3 ≤ fuel) (cur : Token) :
    parseStatement fuel cur (blockUpToCond ds C rest)
      = .ok (declChain ds) ⟨TOK_RBRACE, [Char.ofNat 125]⟩ rest := by
  obtain ⟨g, rfl⟩ : ∃ g, fuel = ((g + 1) + (ds.map Stmt.decl).length) + 1 :=
    ⟨fuel - ds.length - 2, by simp only [List.length_map]; omega⟩
  have hg : 2 * C.depth + 1 ≤ g := by
    simp only [List.length_map] at hf
    omega
  have hv : (ds.map Stmt.decl).all (fun s => s.valid && s.flat) = true := by
    rw [List.all_eq_true] at hds ⊢
    intro s hs
    obtain ⟨a, ha, rfl⟩ := List.mem_map.mp hs
    simpa [Stmt.valid, Stmt.flat] using hds a ha
  have h1 : getNextToken (blockUpToCond ds C rest)
      = (⟨TOK_LBRACE, [Char.ofNat 123]⟩,
          stmtsText (ds.map Stmt.decl) ++ ' ' :: (C.text ++ rest)) := rfl
  have h2 : ∀ c, parseStatement g c (' ' :: (C.text ++ rest))
      = .ok C.tree ⟨TOK_RBRACE, [Char.ofNat 125]⟩ rest := by
    intro c
    rw [show ' ' :: (C.text ++ rest) = [' '] ++ (C.text ++ rest) from rfl,
      parseStatement_blank g c [' '] _ rfl, ← Stmt.isCond_lastToken C hcond]
    exact parseStatement_stmt C hC g hg c rest
  have h3 : ((ds.map Stmt.decl).map Stmt.tree).foldl chainStep (.NULL, 0)
      = (declChain ds, (((ds.map Stmt.decl).map Stmt.tree).foldl chainStep (.NULL, 0)).2) := by
    refine Prod.ext ?_ rfl
    rw [foldl_chainStep_NULL, link_decl]
    intro t ht
    cases ds with
    | nil => simp at ht
    | cons a ds =>
      simp only [List.map_cons, List.head?_cons, Option.mem_def, Option.some.injEq] at ht
      rw [← ht]
      exact Stmt.tree_ne_NULL _
  rw [parseStatement, h1]
  simp only [reduceCtorEq, if_false, if_true]
  rw [blockLoop_flat_then _ hv (g + 1) (by omega), h3, blockLoop, h2]
  simp

/-- C18: for every list of declarations `D1 ... Dk` (`k >= 0`), every
well-formed conditional `C` and every text `rest`, `parseStatement` on
`{ D1 ... Dk C rest` returns the chain of `D1 ... Dk` only (`NULL` when
`k = 0`), a tree without a Conditional node, and leaves the source at `rest`;
so the run on a block that starts with a conditional, such as
`{ if{e}{int a;} }`, prints nothing. -/
theorem conditional_ends_block (ds : List (List Char)) (C : Stmt) (rest : List Char)
    (hds : ds.all isIdent = true) (hC : C.valid = true) (hcond : C.isCond = true)
    (fuel : Nat) (hf : ds.length + 2 * C.depth + 3 ≤ fuel) (cur : Token) :
    parseStatement fuel cur (blockUpToCond ds C rest)
        = .ok (declChain ds) ⟨TOK_RBRACE, [Char.ofNat 125]⟩ rest
      ∧ hasCond (declChain ds) = false
      ∧ main (blockUpToCond [] C rest) = .finished [] := by
  refine ⟨parseStatement_blockUpToCond ds C rest hds hC hcond fuel hf cur,
    hasCond_declChain ds, ?_⟩
  have hlen : 2 * C.depth + 3 ≤ stmtFuel (blockUpToCond [] C rest) := by
    have := C.depth_le_text
    simp only [stmtFuel, blockUpToCond, List.map_nil, stmtsText, List.nil_append,
      List.length_cons, List.length_append]
    omega
  have h := parseStatement_blockUpToCond [] C rest rfl hC hcond _
    (by simpa using hlen) ⟨TOK_END, []⟩
  rw [main, mainLoop, h]
  simp [declChain]

theorem conditional_ends_block_witness :
    parseStatement 7 ⟨TOK_END, []⟩ "\x7b int a; int b; if\x7be\x7d\x7bint c;\x7d int d; \x7d".toList
        = .ok (.node NODE_DECL ['a'] .NULL (.node NODE_DECL ['b'] .NULL .NULL))
            ⟨TOK_RBRACE, [Char.ofNat 125]⟩ " int d; \x7d".toList
      ∧ main "\x7b if\x7be\x7d\x7bint a;\x7d \x7d".toList = .finished [] :=
  ⟨(conditional_ends_block ["a".toList, "b".toList] (.cond "e".toList (.decl "c".toList))
      " int d; \x7d".toList (by decide) (by decide) (by decide) 7 (by decide) ⟨TOK_END, []⟩).1,
    (conditional_ends_block [] (.cond "e".toList (.decl "a".toList)) " \x7d".toList
      (by decide) (by decide) (by decide) 5 (by decide) ⟨TOK_END, []⟩).2.2⟩

/-! ## The shape of the parsing functions -/

theorem scanWhile_length (p : Char → Bool) (s buf : List Char) :
    (scanWhile p buf s).2.length ≤ s.length := by
  induction s generalizing buf with
  | nil => simp [scanWhile]
  | cons c rest ih =>
    rw [scanWhile]
    by_cases h : p c = true
    · rw [if_pos h]
      exact Nat.le_succ_of_le (ih _)
    · rw [if_neg h]

theorem getNextToken_length_cons (c : Char) (rest : List Char) :
    (getNextToken (c :: rest)).2.length ≤ rest.length := by
  induction rest generalizing c with
  | nil =>
    rw [getNextToken]
    split_ifs <;> simp [getNextToken, scanWhile]
  | cons d rest ih =>
    rw [getNextToken]
    split_ifs
    · exact Nat.le_succ_of_le (ih d)
    · exact scanWhile_length _ _ _
    · exact scanWhile_length _ _ _
    · exact Nat.le_refl _
    · exact Nat.le_refl _
    · exact Nat.le_refl _
    · exact Nat.le_refl _
    · exact Nat.le_refl _
    · exact Nat.le_refl _
    · exact Nat.le_succ_of_le (ih d)

theorem getNextToken_length_le (s : List Char) : (getNextToken s).2.length ≤ s.length := by
  cases s with
  | nil => simp [getNextToken]
  | cons c rest => exact Nat.le_succ_of_le (getNextToken_length_cons c rest)

theorem getNextToken_length_lt (s : List Char) (h : (getNextToken s).1.type ≠ TOK_END) :
    (getNextToken s).2.length < s.length := by
  cases s with
  | nil => exact absurd rfl h
  | cons c rest => exact Nat.lt_succ_of_le (getNextToken_length_cons c rest)

theorem parseStatement_succ (f : Nat) (c : Token) (s : List Char) :
    parseStatement (f + 1) c s
      = if (getNextToken s).1.type = TOK_INT then
          parseDeclaration (getNextToken s).1 (getNextToken s).2
        else if (getNextToken s).1.type = TOK_ID then
          parseAssignment (getNextToken s).1 (getNextToken s).2
        else if (getNextToken s).1.type = TOK_IF then
          parseConditional f (getNextToken s).1 (getNextToken s).2
        else if (getNextToken s).1.type = TOK_LBRACE then
          blockLoop f .NULL 0 (getNextToken s).1 (getNextToken s).2
        else .ok .NULL (getNextToken s).1 (getNextToken s).2 := by
  rw [parseStatement]

theorem parseExpression_eq (c : Token) (s : List Char) :
    parseExpression c s
      = .ok (if (getNextToken s).1.type = TOK_NUM ∨ (getNextToken s).1.type = TOK_ID
              then newNode NODE_VAL (getNextToken s).1.value else .NULL)
          (getNextToken s).1 (getNextToken s).2 := by
  by_cases h : (getNextToken s).1.type = TOK_NUM ∨ (getNextToken s).1.type = TOK_ID
  · simp only [parseExpression, h, if_true]
  · simp only [parseExpression, h, if_false]

theorem parseDeclaration_cases (c : Token) (s : List Char) :
    (∃ m, parseDeclaration c s = .exit m)
      ∨ parseDeclaration c s
        = .ok (.node NODE_DECL (getNextToken s).1.value .NULL .NULL)
            (getNextToken (getNextToken s).2).1 (getNextToken (getNextToken s).2).2 := by
  cases h : declWellFormed s with
  | false => exact Or.inl ⟨_, parseDeclaration_malformed c s h⟩
  | true => exact Or.inr (parseDeclaration_wellFormed c s h)

theorem parseAssignment_cases (c : Token) (s : List Char) :
    (∃ m, parseAssignment c s = .exit m)
      ∨ ∃ e, (e = .NULL ∨ ∃ v, e = .node NODE_VAL v .NULL .NULL)
          ∧ parseAssignment c s
            = .ok (.node NODE_ASSIGNMENT c.value .NULL e)
                (getNextToken (getNextToken (getNextToken s).2).2).1
                (getNextToken (getNextToken (getNextToken s).2).2).2 := by
  by_cases h0 : c.type = TOK_ID
  swap
  · exact Or.inl ⟨"Syntax Error: Expected identifier", by simp [parseAssignment, h0]⟩
  by_cases h1 : (getNextToken s).1.type = TOK_ASSIGN
  swap
  · exact Or.inl ⟨"Syntax Error: Expected '='", by simp [parseAssignment, h0, h1]⟩
  by_cases h2 : (getNextToken (getNextToken (getNextToken s).2).2).1.type = TOK_SEMICOLON
  swap
  · exact Or.inl ⟨"Syntax Error: Expected ';'",
      by simp [parseAssignment, parseExpression_eq, h0, h1, h2]⟩
  right
  refine ⟨if (getNextToken (getNextToken s).2).1.type = TOK_NUM
        ∨ (getNextToken (getNextToken s).2).1.type = TOK_ID
      then newNode NODE_VAL (getNextToken (getNextToken s).2).1.value else .NULL, ?_, ?_⟩
  · split_ifs
    · exact Or.inr ⟨_, rfl⟩
    · exact Or.inl rfl
  · simp [parseAssignment, parseExpression_eq, h0, h1, h2, newNode, setRight]

theorem parseConditional_succ (f : Nat) (c : Token) (s : List Char) :
    (∃ m, parseConditional (f + 1) c s = .exit m)
      ∨ ∃ e c3 s3, (e = .NULL ∨ ∃ v, e = .node NODE_VAL v .NULL .NULL)
          ∧ s3.length ≤ s.length
          ∧ parseConditional (f + 1) c s
            = match parseStatement f c3 s3 with
              | .ok body _ sb =>
                if (getNextToken sb).1.type ≠ TOK_RBRACE then
                  .exit "Syntax Error: Expected '\x7d'"
                else .ok (.node NODE_COND [] e body) (getNextToken sb).1 (getNextToken sb).2
              | r => r := by
  by_cases h1 : (getNextToken s).1.type = TOK_LBRACE
  swap
  · exact Or.inl ⟨"Syntax Error: Expected '('", by simp [parseConditional, h1]⟩
  by_cases h2 : (getNextToken (getNextToken (getNextToken s).2).2).1.type = TOK_RBRACE
  swap
  · exact Or.inl ⟨"Syntax Error: Expected ')'",
      by simp [parseConditional, parseExpression_eq, h1, h2]⟩
  by_cases h3 : (getNextToken (getNextToken (getNextToken (getNextToken s).2).2).2).1.type
      = TOK_LBRACE
  swap
  · exact Or.inl ⟨"Syntax Error: Expected '\x7b'",
      by simp [parseConditional, parseExpression_eq, h1, h2, h3]⟩
  right
  refine ⟨if (getNextToken (getNextToken s).2).1.type = TOK_NUM
        ∨ (getNextToken (getNextToken s).2).1.type = TOK_ID
      then newNode NODE_VAL (getNextToken (getNextToken s).2).1.value else .NULL,
    (getNextToken (getNextToken (getNextToken (getNextToken s).2).2).2).1,
    (getNextToken (getNextToken (getNextToken (getNextToken s).2).2).2).2, ?_, ?_, ?_⟩
  · split_ifs
    · exact Or.inr ⟨_, rfl⟩
    · exact Or.inl rfl
  · have a := getNextToken_length_le s
    have b := getNextToken_length_le (getNextToken s).2
    have c := getNextToken_length_le (getNextToken (getNextToken s).2).2
    have d := getNextToken_length_le (getNextToken (getNextToken (getNextToken s).2).2).2
    omega
  · simp only [parseConditional, parseExpression_eq, h1, h2, h3]
    cases parseStatement f (getNextToken (getNextToken (getNextToken (getNextToken s).2).2).2).1
      (getNextToken (getNextToken (getNextToken (getNextToken s).2).2).2).2 <;>
      simp [newNode, setLeft, setRight]

/-! ## Invariants of the trees that the parser returns -/

theorem parse_tree_invariant (I : ASTNode → Prop) (hNULL : I .NULL)
    (hdecl : ∀ d, I (.node NODE_DECL d .NULL .NULL))
    (hassign : ∀ d e, (e = .NULL ∨ ∃ v, e = .node NODE_VAL v .NULL .NULL) →
      I (.node NODE_ASSIGNMENT d .NULL e))
    (hcond : ∀ e body, (e = .NULL ∨ ∃ v, e = .node NODE_VAL v .NULL .NULL) → I body →
      I (.node NODE_COND [] e body))
    (hset : ∀ n b s, I b → I s → I (setRightAt n b s)) (fuel : Nat) :
    (∀ c s t c2 s2, parseStatement fuel c s = .ok t c2 s2 → I t)
      ∧ (∀ c s t c2 s2, parseConditional fuel c s = .ok t c2 s2 → I t)
      ∧ (∀ b l c s t c2 s2, I b → blockLoop fuel b l c s = .ok t c2 s2 → I t) := by
  induction fuel with
  | zero =>
    refine ⟨?_, ?_, ?_⟩
    · intro c s t c2 s2 h
      simp [parseStatement] at h
    · intro c s t c2 s2 h
      simp [parseConditional] at h
    · intro b l c s t c2 s2 _ h
      simp [blockLoop] at h
  | succ f ih =>
    obtain ⟨ihS, ihC, ihB⟩ := ih
    refine ⟨?_, ?_, ?_⟩
    · intro c s t c2 s2 h
      rw [parseStatement_succ] at h
      split_ifs at h
      · rcases parseDeclaration_cases (getNextToken s).1 (getNextToken s).2 with ⟨m, hm⟩ | hd
        · rw [hm] at h
          exact absurd h (by simp)
        · rw [hd] at h
          injection h with h1
          rw [← h1]
          exact hdecl _
      · rcases parseAssignment_cases (getNextToken s).1 (getNextToken s).2 with
          ⟨m, hm⟩ | ⟨e, he, ha⟩
        · rw [hm] at h
          exact absurd h (by simp)
        · rw [ha] at h
          injection h with h1
          rw [← h1]
          exact hassign _ e he
      · exact ihC _ _ _ _ _ h
      · exact ihB _ _ _ _ _ _ _ hNULL h
      · injection h with h1
        rw [← h1]
        exact hNULL
    · intro c s t c2 s2 h
      rcases parseConditional_succ f c s with ⟨m, hm⟩ | ⟨e, c3, s3, he, _, hc⟩
      · rw [hm] at h
        exact absurd h (by simp)
      · rw [hc] at h
        cases hp : parseStatement f c3 s3 with
        | ok body cb sb =>
          rw [hp] at h
          simp only at h
          split_ifs at h
          injection h with h1
          rw [← h1]
          exact hcond e body he (ihS _ _ _ _ _ hp)
        | exit m =>
          rw [hp] at h
          exact absurd h (by simp)
        | outOfFuel =>
          rw [hp] at h
          exact absurd h (by simp)
    · intro b l c s t c2 s2 hb h
      rw [blockLoop] at h
      cases hp : parseStatement f c s with
      | ok st c1 s1 =>
        rw [hp] at h
        simp only at h
        have hst : I st := ihS _ _ _ _ _ hp
        split_ifs at h
        · injection h with h1
          rw [← h1]
          exact hb
        · exact ihB _ _ _ _ _ _ _ hst h
        · exact ihB _ _ _ _ _ _ _ (hset _ _ _ hb hst) h
      | exit m =>
        rw [hp] at h
        exact absurd h (by simp)
      | outOfFuel =>
        rw [hp] at h
        exact absurd h (by simp)

theorem leftShape_setRightAt (n : Nat) (b s : ASTNode) (hb : leftShape b = true)
    (hs : leftShape s = true) : leftShape (setRightAt n b s) = true := by
  induction n generalizing b with
  | zero =>
    cases b with
    | NULL => rfl
    | node ty d l r =>
      simp only [leftShape, Bool.and_eq_true] at hb
      simp only [setRightAt, setRight, leftShape, Bool.and_eq_true]
      exact ⟨⟨⟨hb.1.1.1, hb.1.1.2⟩, hb.1.2⟩, hs⟩
  | succ n ih =>
    cases b with
    | NULL => rfl
    | node ty d l r =>
      simp only [leftShape, Bool.and_eq_true] at hb
      simp only [setRightAt, leftShape, Bool.and_eq_true]
      exact ⟨⟨⟨hb.1.1.1, hb.1.1.2⟩, hb.1.2⟩, ih r hb.2⟩

theorem kindsOK_setRightAt (n : Nat) (b s : ASTNode) (hb : kindsOK b = true)
    (hs : kindsOK s = true) : kindsOK (setRightAt n b s) = true := by
  induction n generalizing b with
  | zero =>
    cases b with
    | NULL => rfl
    | node ty d l r =>
      simp only [kindsOK, Bool.and_eq_true] at hb
      simp only [setRightAt, setRight, kindsOK, Bool.and_eq_true]
      exact ⟨hb.1, hs⟩
  | succ n ih =>
    cases b with
    | NULL => rfl
    | node ty d l r =>
      simp only [kindsOK, Bool.and_eq_true] at hb
      simp only [setRightAt, kindsOK, Bool.and_eq_true]
      exact ⟨hb.1, ih r hb.2⟩

theorem parseStatement_leftShape (fuel : Nat) (c : Token) (s : List Char) (t : ASTNode)
    (c2 : Token) (s2 : List Char) (h : parseStatement fuel c s = .ok t c2 s2) :
    leftShape t = true := by
  refine (parse_tree_invariant (fun t => leftShape t = true) rfl (fun _ => rfl) ?_ ?_
    leftShape_setRightAt fuel).1 c s t c2 s2 h
  · intro d e he
    rcases he with rfl | ⟨v, rfl⟩ <;> rfl
  · intro e body he hbody
    rcases he with rfl | ⟨v, rfl⟩ <;> simp [leftShape, hbody]

theorem parseStatement_kindsOK (fuel : Nat) (c : Token) (s : List Char) (t : ASTNode)
    (c2 : Token) (s2 : List Char) (h : parseStatement fuel c s = .ok t c2 s2) :
    kindsOK t = true := by
  refine (parse_tree_invariant (fun t => kindsOK t = true) rfl (fun _ => rfl) ?_ ?_
    kindsOK_setRightAt fuel).1 c s t c2 s2 h
  · intro d e he
    rcases he with rfl | ⟨v, rfl⟩ <;> rfl
  · intro e body he hbody
    rcases he with rfl | ⟨v, rfl⟩ <;> simp [kindsOK, parserKind, hbody]

/-- C16: in every tree that `parseStatement` returns, on any input and with
any fuel, a node has a left child only if it is a Conditional node, that left
child is a value node with no left and no right child, no Declaration,
Assignment or value node has a left child, and the text of every Conditional
node is empty. -/
theorem returned_tree_left_children (fuel : Nat) (cur : Token) (src : List Char)
    (t : ASTNode) (cur2 : Token) (src2 : List Char)
    (h : parseStatement fuel cur src = .ok t cur2 src2) : leftShape t = true :=
  parseStatement_leftShape fuel cur src t cur2 src2 h

theorem returned_tree_left_children_witness :
    parseStatement 9 ⟨TOK_END, []⟩ "\x7b x = 1; \x7b y = z; x = y; ; \x7d if\x7bx\x7d\x7bq = 2;\x7d".toList
        = .ok (.node NODE_ASSIGNMENT ['x'] .NULL (.node NODE_ASSIGNMENT ['y'] .NULL
            (.node NODE_ASSIGNMENT ['x'] .NULL (.node NODE_VAL ['y'] .NULL .NULL))))
          ⟨TOK_RBRACE, [Char.ofNat 125]⟩ " if\x7bx\x7d\x7bq = 2;\x7d".toList
      ∧ leftShape (.node NODE_COND [] (.node NODE_VAL ['x'] .NULL .NULL)
          (.node NODE_ASSIGNMENT ['q'] .NULL (.node NODE_VAL ['2'] .NULL .NULL))) = true :=
  ⟨by decide,
    returned_tree_left_children 3 ⟨TOK_END, []⟩ "if\x7bx\x7d\x7bq = 2;\x7d".toList _ 
      ⟨TOK_RBRACE, [Char.ofNat 125]⟩ [] (by decide)⟩

theorem instructionLine_generateAssembly (t : ASTNode) (h : kindsOK t = true) :
    ∀ line ∈ generateAssembly t, instructionLine line := by
  induction t with
  | NULL => simp [generateAssembly]
  | node ty d l r ihl ihr =>
    simp only [kindsOK, Bool.and_eq_true] at h
    obtain ⟨⟨hk, hl⟩, hr⟩ := h
    intro line hline
    cases ty with
    | NODE_DECL =>
      simp only [generateAssembly, List.mem_singleton] at hline
      exact Or.inl ⟨d, hline⟩
    | NODE_ASSIGNMENT =>
      simp only [generateAssembly, List.mem_append, List.mem_singleton] at hline
      rcases hline with h1 | h1
      · exact ihr hr line h1
      · exact Or.inr (Or.inl ⟨d, h1⟩)
    | NODE_VAL =>
      simp only [generateAssembly, List.mem_singleton] at hline
      exact Or.inr (Or.inr (Or.inl ⟨d, hline⟩))
    | NODE_COND =>
      simp only [generateAssembly, List.mem_append, List.mem_singleton] at hline
      rcases hline with ((h1 | h1) | h1) | h1
      · exact ihl hl line h1
      · exact Or.inr (Or.inr (Or.inr (Or.inl h1)))
      · exact ihr hr line h1
      · exact Or.inr (Or.inr (Or.inr (Or.inr h1)))
    | NODE_EXPR => simp [parserKind] at hk
    | NODE_VAR => simp [parserKind] at hk

theorem instructionLine_ne_unknown (line : String) (h : instructionLine line) :
    line ≠ "Unknown node type" := by
  intro e
  rw [e] at h
  rcases h with ⟨d, h⟩ | ⟨d, h⟩ | ⟨d, h⟩ | h | h
  · have h2 := congrArg String.data h
    rw [String.data_append] at h2
    exact absurd (List.head_eq_of_cons_eq h2) (by decide)
  · have h2 := congrArg String.data h
    rw [String.data_append] at h2
    exact absurd (List.head_eq_of_cons_eq h2) (by decide)
  · have h2 := congrArg String.data h
    rw [String.data_append] at h2
    exact absurd (List.head_eq_of_cons_eq h2) (by decide)
  · exact absurd h (by decide)
  · exact absurd h (by decide)

theorem mainLoop_instructionLines (fuel : Nat) (c : Token) (s : List Char)
    (out : List String) (hout : ∀ line ∈ out, instructionLine line) :
    ∀ line ∈ (mainLoop fuel c s out).lines, instructionLine line := by
  induction fuel generalizing c s out with
  | zero => simp [mainLoop, RunResult.lines]
  | succ n ih =>
    rw [mainLoop]
    cases hp : parseStatement (stmtFuel s) c s with
    | ok st c1 s1 =>
      simp only
      split_ifs
      · simpa [RunResult.lines] using hout
      · apply ih
        intro line hline
        rcases List.mem_append.mp hline with h1 | h1
        · exact hout line h1
        · exact instructionLine_generateAssembly st
            (parseStatement_kindsOK _ _ _ _ _ _ hp) line h1
    | exit m => simpa [RunResult.lines] using hout
    | outOfFuel => simp [RunResult.lines]

/-- C19: every tree that `parseStatement` returns is built from Declaration,
Assignment, value and Conditional nodes only, never from `NODE_EXPR` or
`NODE_VAR`; so `generateAssembly` never takes its default branch on such a
tree, and for every input each line of the run's output is one of
`VAR <name>`, `STORE <name>`, `LOAD <text>`, `JZ else_label`, `else_label:`
and none is `Unknown node type`. -/
theorem parser_node_kinds (input : List Char) :
    (∀ (fuel : Nat) (cur : Token) (src : List Char) (t : ASTNode) (cur2 : Token)
        (src2 : List Char), parseStatement fuel cur src = .ok t cur2 src2 →
          kindsOK t = true
            ∧ (∀ line ∈ generateAssembly t, instructionLine line)
            ∧ "Unknown node type" ∉ generateAssembly t)
      ∧ (∀ line ∈ (main input).lines, instructionLine line)
      ∧ "Unknown node type" ∉ (main input).lines := by
  have hmain : ∀ line ∈ (main input).lines, instructionLine line :=
    mainLoop_instructionLines _ _ _ [] (by simp)
  refine ⟨?_, hmain, fun hmem => instructionLine_ne_unknown _ (hmain _ hmem) rfl⟩
  intro fuel cur src t cur2 src2 h
  have hk := parseStatement_kindsOK fuel cur src t cur2 src2 h
  have hl := instructionLine_generateAssembly t hk
  exact ⟨hk, hl, fun hmem => instructionLine_ne_unknown _ (hl _ hmem) rfl⟩

theorem parser_node_kinds_witness :
    "Unknown node type" ∉ (main "x = 1; if\x7bx\x7d\x7by = ; ;\x7d int z".toList).lines
      ∧ (main "x = 1; if\x7bx\x7d\x7by = ; ;\x7d int z".toList).lines
        = ["LOAD 1", "STORE x", "LOAD x", "JZ else_label", "STORE y", "else_label:"]
      ∧ generateAssembly (.node NODE_EXPR [] .NULL .NULL) = ["Unknown node type"] :=
  ⟨(parser_node_kinds "x = 1; if\x7bx\x7d\x7by = ; ;\x7d int z".toList).2.2, by decide, rfl⟩

/-! ## Termination -/

theorem parse_consumes (fuel : Nat) :
    (∀ c s t c2 s2, parseStatement fuel c s = .ok t c2 s2 →
        s2.length ≤ s.length ∧ (t ≠ .NULL → s2.length < s.length))
      ∧ (∀ c s t c2 s2, parseConditional fuel c s = .ok t c2 s2 → s2.length ≤ s.length)
      ∧ (∀ b l c s t c2 s2, blockLoop fuel b l c s = .ok t c2 s2 →
          s2.length ≤ s.length) := by
  induction fuel with
  | zero =>
    refine ⟨?_, ?_, ?_⟩
    · intro c s t c2 s2 h
      simp [parseStatement] at h
    · intro c s t c2 s2 h
      simp [parseConditional] at h
    · intro b l c s t c2 s2 h
      simp [blockLoop] at h
  | succ f ih =>
    obtain ⟨ihS, ihC, ihB⟩ := ih
    refine ⟨?_, ?_, ?_⟩
    · intro c s t c2 s2 h
      rw [parseStatement_succ] at h
      have l1 := getNextToken_length_le (getNextToken s).2
      have l2 := getNextToken_length_le (getNextToken (getNextToken s).2).2
      have l3 := getNextToken_length_le (getNextToken (getNextToken (getNextToken s).2).2).2
      split_ifs at h with h1 h2 h3 h4
      · have lt := getNextToken_length_lt s (by rw [h1]; decide)
        rcases parseDeclaration_cases (getNextToken s).1 (getNextToken s).2 with ⟨m, hm⟩ | hd
        · rw [hm] at h
          exact absurd h (by simp)
        · rw [hd] at h
          injection h with _ _ e3
          rw [← e3]
          exact ⟨by omega, fun _ => by omega⟩
      · have lt := getNextToken_length_lt s (by rw [h2]; decide)
        rcases parseAssignment_cases (getNextToken s).1 (getNextToken s).2 with
          ⟨m, hm⟩ | ⟨e, _, ha⟩
        · rw [hm] at h
          exact absurd h (by simp)
        · rw [ha] at h
          injection h with _ _ e3
          rw [← e3]
          exact ⟨by omega, fun _ => by omega⟩
      · have lt := getNextToken_length_lt s (by rw [h3]; decide)
        have le := ihC _ _ _ _ _ h
        exact ⟨by omega, fun _ => by omega⟩
      · have lt := getNextToken_length_lt s (by rw [h4]; decide)
        have le := ihB _ _ _ _ _ _ _ h
        exact ⟨by omega, fun _ => by omega⟩
      · injection h with e1 _ e3
        rw [← e3, ← e1]
        exact ⟨getNextToken_length_le s, fun hne => absurd rfl hne⟩
    · intro c s t c2 s2 h
      rcases parseConditional_succ f c s with ⟨m, hm⟩ | ⟨e, c3, s3, _, hlen, hc⟩
      · rw [hm] at h
        exact absurd h (by simp)
      · rw [hc] at h
        cases hp : parseStatement f c3 s3 with
        | ok body cb sb =>
          rw [hp] at h
          simp only at h
          split_ifs at h
          injection h with _ _ e3
          have l1 := (ihS _ _ _ _ _ hp).1
          have l2 := getNextToken_length_le sb
          rw [← e3]
          omega
        | exit m =>
          rw [hp] at h
          exact absurd h (by simp)
        | outOfFuel =>
          rw [hp] at h
          exact absurd h (by simp)
    · intro b l c s t c2 s2 h
      rw [blockLoop] at h
      cases hp : parseStatement f c s with
      | ok st c1 s1 =>
        rw [hp] at h
        simp only at h
        have l1 := (ihS _ _ _ _ _ hp).1
        split_ifs at h
        · injection h with _ _ e3
          rw [← e3]
          exact l1
        · have l2 := ihB _ _ _ _ _ _ _ h
          omega
        · have l2 := ihB _ _ _ _ _ _ _ h
          omega
      | exit m =>
        rw [hp] at h
        exact absurd h (by simp)
      | outOfFuel =>
        rw [hp] at h
        exact absurd h (by simp)

theorem parse_fuel_enough (fuel : Nat) :
    (∀ c s, 2 * s.length + 1 ≤ fuel → parseStatement fuel c s ≠ .outOfFuel)
      ∧ (∀ c s, 2 * s.length + 2 ≤ fuel → parseConditional fuel c s ≠ .outOfFuel)
      ∧ (∀ b l c s, 2 * s.length + 2 ≤ fuel → blockLoop fuel b l c s ≠ .outOfFuel) := by
  induction fuel with
  | zero =>
    refine ⟨?_, ?_, ?_⟩
    · intro c s h
      omega
    · intro c s h
      omega
    · intro b l c s h
      omega
  | succ f ih =>
    obtain ⟨ihS, ihC, ihB⟩ := ih
    refine ⟨?_, ?_, ?_⟩
    · intro c s hf
      rw [parseStatement_succ]
      split_ifs with h1 h2 h3 h4
      · rcases parseDeclaration_cases (getNextToken s).1 (getNextToken s).2 with ⟨m, hm⟩ | hd
        · rw [hm]
          simp
        · rw [hd]
          simp
      · rcases parseAssignment_cases (getNextToken s).1 (getNextToken s).2 with
          ⟨m, hm⟩ | ⟨e, _, ha⟩
        · rw [hm]
          simp
        · rw [ha]
          simp
      · have lt := getNextToken_length_lt s (by rw [h3]; decide)
        exact ihC _ _ (by omega)
      · have lt := getNextToken_length_lt s (by rw [h4]; decide)
        exact ihB _ _ _ _ (by omega)
      · simp
    · intro c s hf
      rcases parseConditional_succ f c s with ⟨m, hm⟩ | ⟨e, c3, s3, _, hlen, hc⟩
      · rw [hm]
        simp
      · rw [hc]
        have hne := ihS c3 s3 (by omega)
        cases hp : parseStatement f c3 s3 with
        | ok body cb sb =>
          simp only
          split_ifs <;> simp
        | exit m => simp
        | outOfFuel => exact absurd hp hne
    · intro b l c s hf
      rw [blockLoop]
      have hne := ihS c s (by omega)
      cases hp : parseStatement f c s with
      | ok st c1 s1 =>
        simp only
        have hlt := ((parse_consumes f).1 _ _ _ _ _ hp).2
        split_ifs with g1 g2
        · simp
        · have := hlt (fun e => g1 (Or.inl e))
          exact ihB _ _ _ _ (by omega)
        · have := hlt (fun e => g1 (Or.inl e))
          exact ihB _ _ _ _ (by omega)
      | exit m => simp
      | outOfFuel => exact absurd hp hne

theorem mainLoop_fuel_enough (n : Nat) (c : Token) (s : List Char) (out : List String)
    (hn : s.length + 1 ≤ n) : mainLoop n c s out ≠ .outOfFuel := by
  induction n generalizing c s out with
  | zero => omega
  | succ n ih =>
    rw [mainLoop]
    have hne := (parse_fuel_enough (stmtFuel s)).1 c s (Nat.le_refl _)
    cases hp : parseStatement (stmtFuel s) c s with
    | ok st c1 s1 =>
      simp only
      split_ifs with g
      · simp
      · have := ((parse_consumes _).1 _ _ _ _ _ hp).2 g
        exact ih _ _ _ (by omega)
    | exit m => simp
    | outOfFuel => exact absurd hp hne

theorem parseConditional_eq (f : Nat) (c : Token) (s : List Char) :
    parseConditional (f + 1) c s = condStep (parseStatement f) s := by
  rw [parseConditional, condStep]

theorem condStep_congr (P Q : Token → List Char → Res) (s : List Char)
    (h : condStep P s ≠ .outOfFuel)
    (hPQ : ∀ c s2, P c s2 ≠ .outOfFuel → Q c s2 = P c s2) :
    condStep Q s = condStep P s := by
  simp only [condStep, parseExpression_eq] at h ⊢
  by_cases hP : P (getNextToken (getNextToken (getNextToken (getNextToken s).2).2).2).1
      (getNextToken (getNextToken (getNextToken (getNextToken s).2).2).2).2 = .outOfFuel
  · simp only [hP] at h
    split_ifs at h ⊢ <;> first | rfl | exact absurd rfl h
  · rw [hPQ _ _ hP]

theorem parse_fuel_mono (f : Nat) :
    (∀ c s, parseStatement f c s ≠ .outOfFuel →
        parseStatement (f + 1) c s = parseStatement f c s)
      ∧ (∀ c s, parseConditional f c s ≠ .outOfFuel →
        parseConditional (f + 1) c s = parseConditional f c s)
      ∧ (∀ b l c s, blockLoop f b l c s ≠ .outOfFuel →
        blockLoop (f + 1) b l c s = blockLoop f b l c s) := by
  induction f with
  | zero =>
    refine ⟨?_, ?_, ?_⟩
    · intro c s h
      simp [parseStatement] at h
    · intro c s h
      simp [parseConditional] at h
    · intro b l c s h
      simp [blockLoop] at h
  | succ g ih =>
    obtain ⟨ihS, ihC, ihB⟩ := ih
    refine ⟨?_, ?_, ?_⟩
    · intro c s h
      rw [parseStatement_succ] at h
      rw [parseStatement_succ (g + 1), parseStatement_succ g]
      split_ifs at h ⊢
      · rfl
      · rfl
      · exact ihC _ _ h
      · exact ihB _ _ _ _ h
      · rfl
    · intro c s h
      rw [parseConditional_eq] at h
      rw [parseConditional_eq (g + 1), parseConditional_eq g]
      exact condStep_congr _ _ s h ihS
    · intro b l c s h
      rw [blockLoop] at h
      rw [blockLoop, blockLoop]
      cases hp : parseStatement g c s with
      | ok st c1 s1 =>
        rw [hp] at h
        rw [ihS c s (by rw [hp]; simp), hp]
        simp only at h ⊢
        split_ifs at h ⊢
        · rfl
        · exact ihB _ _ _ _ h
        · exact ihB _ _ _ _ h
      | exit m =>
        rw [ihS c s (by rw [hp]; simp), hp]
      | outOfFuel =>
        rw [hp] at h
        exact absurd rfl h

theorem parseStatement_more_fuel (c : Token) (s : List Char) (fuel : Nat)
    (h : stmtFuel s ≤ fuel) :
    parseStatement fuel c s = parseStatement (stmtFuel s) c s := by
  obtain ⟨k, rfl⟩ : ∃ k, fuel = stmtFuel s + k := ⟨fuel - stmtFuel s, by omega⟩
  clear h
  induction k with
  | zero => rfl
  | succ k ih =>
    have hne : parseStatement (stmtFuel s + k) c s ≠ .outOfFuel := by
      rw [ih]
      exact (parse_fuel_enough (stmtFuel s)).1 c s (Nat.le_refl _)
    rw [← Nat.add_assoc, (parse_fuel_mono _).1 c s hne, ih]

/-- C20: the run terminates on every input.  `getNextToken` consumes at
least one character whenever it returns a token other than end-of-input, and
a `parseStatement` call that returns a node has consumed at least one
character; hence fuel bounded by the length of the unread source is enough
for `parseStatement`, `parseConditional` and the block loop to end with a
node, `NULL` or a fatal syntax error (more fuel never changes the result),
and `main` ends normally or with a syntax error. -/
theorem run_terminates (input : List Char) :
    (∀ s, (getNextToken s).1.type ≠ TOK_END → (getNextToken s).2.length < s.length)
      ∧ (∀ (fuel : Nat) (c : Token) (s : List Char) (t : ASTNode) (c2 : Token)
          (s2 : List Char), parseStatement fuel c s = .ok t c2 s2 → t ≠ .NULL →
            s2.length < s.length)
      ∧ (∀ (c : Token) (s : List Char),
          (∃ t c2 s2, parseStatement (stmtFuel s) c s = .ok t c2 s2)
            ∨ ∃ m, parseStatement (stmtFuel s) c s = .exit m)
      ∧ (∀ (c : Token) (s : List Char) (fuel : Nat), stmtFuel s ≤ fuel →
          parseStatement fuel c s = parseStatement (stmtFuel s) c s)
      ∧ (∀ (c : Token) (s : List Char) (fuel : Nat), 2 * s.length + 2 ≤ fuel →
          parseConditional fuel c s ≠ .outOfFuel)
      ∧ (∀ (b : ASTNode) (l : Nat) (c : Token) (s : List Char) (fuel : Nat),
          2 * s.length + 2 ≤ fuel → blockLoop fuel b l c s ≠ .outOfFuel)
      ∧ ((∃ out, main input = .finished out) ∨ ∃ out m, main input = .syntaxError out m) := by
  refine ⟨getNextToken_length_lt, ?_, ?_, parseStatement_more_fuel, ?_, ?_, ?_⟩
  · intro fuel c s t c2 s2 h hne
    exact ((parse_consumes fuel).1 c s t c2 s2 h).2 hne
  · intro c s
    have hne := (parse_fuel_enough (stmtFuel s)).1 c s (Nat.le_refl _)
    cases hp : parseStatement (stmtFuel s) c s with
    | ok t c2 s2 => exact Or.inl ⟨t, c2, s2, rfl⟩
    | exit m => exact Or.inr ⟨m, rfl⟩
    | outOfFuel => exact absurd hp hne
  · intro c s fuel h
    exact (parse_fuel_enough fuel).2.1 c s h
  · intro b l c s fuel h
    exact (parse_fuel_enough fuel).2.2 b l c s h
  · have hne : main input ≠ .outOfFuel :=
      mainLoop_fuel_enough _ _ _ _ (Nat.le_refl _)
    cases hm : main input with
    | finished out => exact Or.inl ⟨out, rfl⟩
    | syntaxError out m => exact Or.inr ⟨out, m, rfl⟩
    | outOfFuel => exact absurd hm hne

/-! ## Characters that the lexer does not recognise -/

theorem sanitize_cons (c : Char) (s : List Char) :
    sanitize (c :: s) = sanitizeChar c :: sanitize s := rfl

theorem recognised_of_isalnum {c : Char} (h : isalnum c = true) : recognised c = true := by
  simp only [isalnum, Bool.or_eq_true] at h
  rcases h with h | h <;> simp [recognised, startsToken, h]

theorem recognised_of_isdigit {c : Char} (h : isdigit c = true) : recognised c = true := by
  simp [recognised, startsToken, h]

theorem scanWhile_sanitize (p : Char → Bool) (hp : ∀ c, p c = true → recognised c = true)
    (hsp : p ' ' = false) (s buf : List Char) :
    scanWhile p buf (sanitize s) = ((scanWhile p buf s).1, sanitize (scanWhile p buf s).2) := by
  induction s generalizing buf with
  | nil => rfl
  | cons c rest ih =>
    rw [sanitize_cons]
    by_cases hpc : p c = true
    · have hc : sanitizeChar c = c := by simp [sanitizeChar, hp c hpc]
      rw [hc, scanWhile, scanWhile, if_pos hpc, if_pos hpc]
      exact ih _
    · have hpc2 : p (sanitizeChar c) = false := by
        unfold sanitizeChar
        split_ifs
        · simpa using hpc
        · exact hsp
      rw [scanWhile, scanWhile, if_neg hpc, if_neg (by simp [hpc2])]
      rfl

theorem getNextToken_unrecognised (c : Char) (rest : List Char)
    (h : recognised c = false) : getNextToken (c :: rest) = getNextToken rest := by
  simp only [recognised, startsToken, Bool.or_eq_false_iff, decide_eq_false_iff_not] at h
  obtain ⟨hs, ⟨⟨⟨⟨⟨⟨ha, hd⟩, h1⟩, h2⟩, h3⟩, h4⟩, h5⟩, h6⟩ := h
  rw [getNextToken]
  simp [hs, ha, hd, h1, h2, h3, h4, h5, h6]

theorem getNextToken_sanitize (s : List Char) :
    getNextToken (sanitize s) = ((getNextToken s).1, sanitize (getNextToken s).2) := by
  induction s with
  | nil => rfl
  | cons c rest ih =>
    rw [sanitize_cons]
    by_cases hr : recognised c = true
    · have hc : sanitizeChar c = c := by simp [sanitizeChar, hr]
      rw [hc, getNextToken, getNextToken]
      by_cases hs : isspace c = true
      · rw [if_pos hs, if_pos hs]
        exact ih
      rw [if_neg hs, if_neg hs]
      by_cases ha : isalpha c = true
      · rw [if_pos ha, if_pos ha]
        simp only [scanWhile_sanitize isalnum (fun _ => recognised_of_isalnum) rfl]
      rw [if_neg ha, if_neg ha]
      by_cases hd : isdigit c = true
      · rw [if_pos hd, if_pos hd]
        simp only [scanWhile_sanitize isdigit (fun _ => recognised_of_isdigit) rfl]
      rw [if_neg hd, if_neg hd]
      by_cases h1 : c = '='
      · rw [if_pos h1, if_pos h1]
      rw [if_neg h1, if_neg h1]
      by_cases h2 : c = '+'
      · rw [if_pos h2, if_pos h2]
      rw [if_neg h2, if_neg h2]
      by_cases h3 : c = '-'
      · rw [if_pos h3, if_pos h3]
      rw [if_neg h3, if_neg h3]
      by_cases h4 : c = Char.ofNat 123
      · rw [if_pos h4, if_pos h4]
      rw [if_neg h4, if_neg h4]
      by_cases h5 : c = Char.ofNat 125
      · rw [if_pos h5, if_pos h5]
      rw [if_neg h5, if_neg h5]
      by_cases h6 : c = ';'
      · rw [if_pos h6, if_pos h6]
      rw [if_neg h6, if_neg h6]
      exact ih
    · have hr2 : recognised c = false := by simpa using hr
      have hc : sanitizeChar c = ' ' := by simp [sanitizeChar, hr2]
      rw [hc, getNextToken_space, getNextToken_unrecognised c rest hr2]
      exact ih

theorem tokenStream_sanitize (n : Nat) (s : List Char) :
    tokenStream n (sanitize s) = tokenStream n s := by
  induction n generalizing s with
  | zero => rfl
  | succ n ih =>
    rw [tokenStream, tokenStream, getNextToken_sanitize]
    simp only
    rw [ih]

theorem parseDeclaration_sanitize (c : Token) (s : List Char) :
    parseDeclaration c (sanitize s) = (parseDeclaration c s).mapSource sanitize := by
  simp only [parseDeclaration, getNextToken_sanitize]
  split_ifs <;> rfl

theorem parseAssignment_sanitize (c : Token) (s : List Char) :
    parseAssignment c (sanitize s) = (parseAssignment c s).mapSource sanitize := by
  simp only [parseAssignment, parseExpression_eq, getNextToken_sanitize]
  split_ifs <;> rfl

theorem condStep_sanitize (P : Token → List Char → Res)
    (hP : ∀ c s, P c (sanitize s) = (P c s).mapSource sanitize) (s : List Char) :
    condStep P (sanitize s) = (condStep P s).mapSource sanitize := by
  simp only [condStep, parseExpression_eq, getNextToken_sanitize, hP]
  by_cases h1 : (getNextToken s).1.type = TOK_LBRACE
  swap
  · simp [h1, Res.mapSource]
  by_cases h2 : (getNextToken (getNextToken (getNextToken s).2).2).1.type = TOK_RBRACE
  swap
  · simp [h1, h2, Res.mapSource]
  by_cases h3 : (getNextToken (getNextToken (getNextToken (getNextToken s).2).2).2).1.type
      = TOK_LBRACE
  swap
  · simp [h1, h2, h3, Res.mapSource]
  simp only [h1, h2, h3, not_true_eq_false, if_false]
  cases P (getNextToken (getNextToken (getNextToken (getNextToken s).2).2).2).1
      (getNextToken (getNextToken (getNextToken (getNextToken s).2).2).2).2 with
  | ok body cb sb =>
    simp only [Res.mapSource, getNextToken_sanitize]
    split_ifs <;> rfl
  | exit m => rfl
  | outOfFuel => rfl

theorem parse_sanitize (fuel : Nat) :
    (∀ c s, parseStatement fuel c (sanitize s)
        = (parseStatement fuel c s).mapSource sanitize)
      ∧ (∀ c s, parseConditional fuel c (sanitize s)
        = (parseConditional fuel c s).mapSource sanitize)
      ∧ (∀ b l c s, blockLoop fuel b l c (sanitize s)
        = (blockLoop fuel b l c s).mapSource sanitize) := by
  induction fuel with
  | zero =>
    refine ⟨?_, ?_, ?_⟩
    · intro c s
      simp [parseStatement, Res.mapSource]
    · intro c s
      simp [parseConditional, Res.mapSource]
    · intro b l c s
      simp [blockLoop, Res.mapSource]
  | succ f ih =>
    obtain ⟨ihS, ihC, ihB⟩ := ih
    refine ⟨?_, ?_, ?_⟩
    · intro c s
      rw [parseStatement_succ, parseStatement_succ, getNextToken_sanitize]
      simp only
      split_ifs
      · exact parseDeclaration_sanitize _ _
      · exact parseAssignment_sanitize _ _
      · exact ihC _ _
      · exact ihB _ _ _ _
      · rfl
    · intro c s
      rw [parseConditional_eq, parseConditional_eq]
      exact condStep_sanitize _ ihS s
    · intro b l c s
      rw [blockLoop, blockLoop, ihS]
      cases parseStatement f c s with
      | ok st c1 s1 =>
        simp only [Res.mapSource]
        split_ifs
        · rfl
        · exact ihB _ _ _ _
        · exact ihB _ _ _ _
      | exit m => rfl
      | outOfFuel => rfl

theorem mainLoop_sanitize (n : Nat) (c : Token) (s : List Char) (out : List String) :
    mainLoop n c (sanitize s) out = mainLoop n c s out := by
  induction n generalizing c s out with
  | zero => rfl
  | succ n ih =>
    have hf : stmtFuel (sanitize s) = stmtFuel s := by simp [stmtFuel, sanitize]
    rw [mainLoop, mainLoop, hf, (parse_sanitize (stmtFuel s)).1]
    cases parseStatement (stmtFuel s) c s with
    | ok st c1 s1 =>
      simp only [Res.mapSource]
      split_ifs
      · rfl
      · exact ih _ _ _
    | exit m => rfl
    | outOfFuel => rfl

/-- C13: a character that is neither whitespace, nor an ASCII letter or
digit, nor one of `= + - { } ;` produces no token: `getNextToken` skips it.
Replacing every such character of an input by a space changes neither the
token that `getNextToken` returns, nor the sequence of tokens returned by
repeated calls, nor the result of the run. -/
theorem unrecognised_characters_separate (s : List Char) :
    (∀ (c : Char) (rest : List Char), recognised c = false →
        getNextToken (c :: rest) = getNextToken rest)
      ∧ getNextToken (sanitize s) = ((getNextToken s).1, sanitize (getNextToken s).2)
      ∧ (∀ n, tokenStream n (sanitize s) = tokenStream n s)
      ∧ main (sanitize s) = main s := by
  refine ⟨getNextToken_unrecognised, getNextToken_sanitize s,
    fun n => tokenStream_sanitize n s, ?_⟩
  have hl : (sanitize s).length = s.length := by simp [sanitize]
  rw [main, main, hl]
  exact mainLoop_sanitize _ _ _ _

theorem unrecognised_characters_separate_witness :
    sanitize "if(x)\x7bint y;\x7d*<y=(2);".toList = "if x \x7bint y;\x7d  y= 2 ;".toList
      ∧ main "if(x)\x7bint y;\x7d*<y=(2);".toList = main "if x \x7bint y;\x7d  y= 2 ;".toList
      ∧ main "x=(1);y=<x>;".toList
        = .finished ["LOAD 1", "STORE x", "LOAD x", "STORE y"] :=
  ⟨by decide, (unrecognised_characters_separate "if(x)\x7bint y;\x7d*<y=(2);".toList).2.2.2.symm,
    by decide⟩

end Vicharak
